import Mathlib

/-! # PipeWire connection and shared memory block

A shallow embedding of `src/pipewire/client/connection.c`, followed by one of
`src/pinos/client/mem.c` (section "Shared memory block").

Conventions of the embedding.

* A C array or heap allocation is a list of cells.  A cell past the end of the
  list has never been written; it reads as zero (`peek`).  `calloc` and `malloc`
  therefore both give the empty list, `realloc` keeps the list.
* A pointer into `buffer_data` is the byte offset from the start of the
  allocation, so that it stays meaningful across `realloc`.
* `uint32_t` and `uint8_t` arithmetic is reduced modulo `2^32` and `2^8`
  where the C code computes in those types.  `size_t` and `off_t` values are
  natural numbers.
* `recvmsg` and `sendmsg` are the environment.  Each call of the code consumes
  one entry of a script of system call outcomes.  A function that needs a
  system call when the script is exhausted returns `none`: the call has not
  returned yet and is waiting for the next outcome.
* A 32-bit word occupies four bytes, least significant byte first.
* Allocation (`malloc`, `calloc`, `realloc`) succeeds.  The log calls and the
  `need_flush` and `destroy_signal` notifications do not touch the buffers and
  are left out.
-/

namespace Pipewire

/-! ## Memory cells -/

/-- Read cell `i` of an allocation; a cell that was never written reads as `d`. -/
def peek {α : Type} (d : α) (mem : List α) (i : Nat) : α :=
  mem.getD i d

/-- Write `cells` into an allocation starting at cell `pos` (the effect of `memcpy`
or of the kernel filling an `iovec`). -/
def store {α : Type} (d : α) (mem : List α) (pos : Nat) (cells : List α) : List α :=
  mem.take pos ++ List.replicate (pos - mem.length) d ++ cells ++ mem.drop (pos + cells.length)

/-- Read `n` consecutive cells starting at `pos`. -/
def load {α : Type} (d : α) (mem : List α) (pos n : Nat) : List α :=
  (List.range n).map (fun i => peek d mem (pos + i))

/-- The four bytes of a `uint32_t`, least significant first. -/
def encode32 (w : Nat) : List Nat :=
  [w % 256, w / 256 % 256, w / 65536 % 256, w / 16777216 % 256]

/-- The `uint32_t` read through a `uint32_t *` at byte offset `pos`. -/
def load32 (mem : List Nat) (pos : Nat) : Nat :=
  peek 0 mem pos % 256 + 256 * (peek 0 mem (pos + 1) % 256)
    + 65536 * (peek 0 mem (pos + 2) % 256) + 16777216 * (peek 0 mem (pos + 3) % 256)

/-- The assignment `*p = w` through a `uint32_t *` at byte offset `pos`. -/
def store32 (mem : List Nat) (pos w : Nat) : List Nat :=
  store 0 mem pos (encode32 w)

/-! ## Data model -/

def MAX_BUFFER_SIZE : Nat := 4096

def MAX_FDS : Nat := 28

/-- The value of `(uint32_t) -1`. -/
def UINT32_MINUS_ONE : Nat := 4294967295

/-- The C `struct buffer`. -/
structure buffer where
  buffer_data : List Nat
  buffer_size : Nat
  buffer_maxsize : Nat
  fds : List Int
  n_fds : Nat
  offset : Nat
  data : Nat
  size : Nat
  update : Bool
deriving DecidableEq

/-- The C `struct pw_connection_impl`: the socket descriptor of `this` and the two
buffers (`in` is a reserved word, hence `in_`). -/
structure pw_connection_impl where
  fd : Int
  in_ : buffer
  out : buffer
deriving DecidableEq

/-- One control message of a received `msghdr`. -/
inductive cmsghdr where
  | scm_rights (fds : List Int)
  | other
deriving DecidableEq

/-- Outcome of one `recvmsg` call: the bytes and control messages the kernel has
for this call, `EINTR`, or another error. -/
inductive recvmsg_ret where
  | ok (bytes : List Nat) (control : List cmsghdr)
  | eintr
  | error
deriving DecidableEq

/-- Outcome of one `sendmsg` call: the number of bytes the kernel is ready to
accept, `EINTR`, or another error. -/
inductive sendmsg_ret where
  | ok (len : Nat)
  | eintr
  | error
deriving DecidableEq

/-- What one successful `sendmsg` put on the wire. -/
structure sent where
  bytes : List Nat
  fds : List Int
deriving DecidableEq

/-- How `pw_connection_get_next` returned: `true` with the four output
parameters, `false` after `clear_buffer` (line 243), or `false` from the failed
`refill_buffer` (line 232). -/
inductive get_next_ret where
  | message (opcode dest_id dt sz : Nat)
  | no_more
  | recv_error
deriving DecidableEq

/-- The C return value of `pw_connection_get_next`. -/
def get_next_ret.to_bool : get_next_ret → Bool
  | .message _ _ _ _ => true
  | .no_more => false
  | .recv_error => false

/-! ## Operations -/

/-- Modelled from the spec: the macro `SPA_ROUND_UP_N` is declared outside the
sources at hand; the spec gives it as the next multiple of the unit at or above
the requirement. -/
def SPA_ROUND_UP_N (num align : Nat) : Nat :=
  (num + (align - 1)) / align * align

def pw_connection_get_fd (impl : pw_connection_impl) (index : Nat) : Int :=
  if index ≥ impl.in_.n_fds then -1
  else peek 0 impl.in_.fds index

/-- Returns the `uint32_t` result and the connection afterwards. -/
def pw_connection_add_fd (impl : pw_connection_impl) (fd : Int) : Nat × pw_connection_impl :=
  match (List.range impl.out.n_fds).find? (fun i => peek 0 impl.out.fds i == fd) with
  | some i => (i, impl)
  | none =>
    let index := impl.out.n_fds
    if index ≥ MAX_FDS then (UINT32_MINUS_ONE, impl)
    else
      (index, { impl with out := { impl.out with
          fds := store 0 impl.out.fds index [fd],
          n_fds := (impl.out.n_fds + 1) % 4294967296 } })

/-- Returns the offset of `buffer_data + buffer_size` and the buffer afterwards. -/
def connection_ensure_size (buf : buffer) (size : Nat) : Nat × buffer :=
  if buf.buffer_size + size > buf.buffer_maxsize then
    (buf.buffer_size,
      { buf with buffer_maxsize := SPA_ROUND_UP_N (buf.buffer_size + size) MAX_BUFFER_SIZE })
  else (buf.buffer_size, buf)

/-- The `iov_len` that `refill_buffer` offers to `recvmsg`. -/
def recv_iov_len (buf : buffer) : Nat :=
  buf.buffer_maxsize - buf.buffer_size

/-- The control message loop of `refill_buffer`.  The kernel writes at most the
`MAX_FDS` descriptors for which `cmsgbuf` has room. -/
def refill_control (buf : buffer) : List cmsghdr → buffer
  | [] => buf
  | .other :: rest => refill_control buf rest
  | .scm_rights fds :: rest =>
    refill_control { buf with
      n_fds := (fds.take MAX_FDS).length,
      fds := store 0 buf.fds 0 (fds.take MAX_FDS) } rest

/-- The part of `refill_buffer` after a successful `recvmsg` (lines 125 to 139).
The kernel writes at most `iov_len` bytes. -/
def refill_buffer_ok (buf : buffer) (bytes : List Nat) (control : List cmsghdr) : buffer :=
  let got := bytes.take (recv_iov_len buf)
  refill_control { buf with
    buffer_data := store 0 buf.buffer_data buf.buffer_size got,
    buffer_size := buf.buffer_size + got.length } control

/-- The function `refill_buffer`: the result, the buffer and the unused outcomes. -/
def refill_buffer : List recvmsg_ret → buffer → Option (Bool × buffer × List recvmsg_ret)
  | [], _ => none
  | .eintr :: rest, buf => refill_buffer rest buf
  | .error :: rest, buf => some (false, buf, rest)
  | .ok bytes control :: rest, buf => some (true, refill_buffer_ok buf bytes control, rest)

def clear_buffer (buf : buffer) : buffer :=
  { buf with n_fds := 0, offset := 0, size := 0, buffer_size := 0 }

/-- A new connection; both `malloc` calls and the `calloc` succeed. -/
def pw_connection_new (fd : Int) : pw_connection_impl :=
  { fd := fd,
    in_ := { buffer_data := [], buffer_size := 0, buffer_maxsize := MAX_BUFFER_SIZE, fds := [],
             n_fds := 0, offset := 0, data := 0, size := 0, update := true },
    out := { buffer_data := [], buffer_size := 0, buffer_maxsize := MAX_BUFFER_SIZE, fds := [],
             n_fds := 0, offset := 0, data := 0, size := 0, update := false } }

/-- One pass over lines 236 to 276 of `pw_connection_get_next`: either the call
returns, or it jumps back to `again` with `update` set. -/
inductive parse_step where
  | ret (r : get_next_ret) (buf : buffer)
  | again (buf : buffer)
deriving DecidableEq

/-- Lines 236 to 276 of `pw_connection_get_next`. -/
def get_next_parse (buf : buffer) : parse_step :=
  let size := buf.buffer_size
  if buf.offset ≥ size then
    .ret .no_more { clear_buffer buf with update := true }
  else
    let data := buf.offset
    let size := size - buf.offset
    if size < 8 then
      .again { (connection_ensure_size buf 8).2 with update := true }
    else
      let p0 := load32 buf.buffer_data data
      let p1 := load32 buf.buffer_data (data + 4)
      let data := data + 8
      let size := size - 8
      let dest_id := p0
      let opcode := (p1 >>> 24) % 256
      let len := p1 &&& 0xffffff
      if len > size then
        .again { (connection_ensure_size buf len).2 with update := true }
      else
        .ret (.message opcode dest_id data (len % 4294967296))
          { buf with size := len, data := data, offset := buf.offset + 8 }

/-- The loop at label `again`, entered with `update` set, that is at the call of
`refill_buffer` (lines 229 to 276). -/
def get_next_again : List recvmsg_ret → buffer → Option (get_next_ret × buffer × List recvmsg_ret)
  | [], _ => none
  | .eintr :: rest, buf => get_next_again rest buf
  | .error :: rest, buf => some (.recv_error, buf, rest)
  | .ok bytes control :: rest, buf =>
    match get_next_parse { refill_buffer_ok buf bytes control with update := false } with
    | .ret r buf1 => some (r, buf1, rest)
    | .again buf1 => get_next_again rest buf1

/-- The function `pw_connection_get_next` on the inbound buffer. -/
def get_next_buffer (script : List recvmsg_ret) (buf0 : buffer) :
    Option (get_next_ret × buffer × List recvmsg_ret) :=
  let buf := { buf0 with offset := buf0.offset + buf0.size }
  if buf.update then get_next_again script buf
  else
    match get_next_parse buf with
    | .ret r buf1 => some (r, buf1, script)
    | .again buf1 => get_next_again script buf1

/-- The function `pw_connection_get_next`: how it returned, the connection
afterwards and the unused `recvmsg` outcomes. -/
def pw_connection_get_next (script : List recvmsg_ret) (impl : pw_connection_impl) :
    Option (get_next_ret × pw_connection_impl × List recvmsg_ret) :=
  (get_next_buffer script impl.in_).map
    (fun r => (r.1, { impl with in_ := r.2.1 }, r.2.2))

/-- Returns the scratch position `p + 2` and the connection afterwards. -/
def pw_connection_begin_write (impl : pw_connection_impl) (size : Nat) :
    Nat × pw_connection_impl :=
  let r := connection_ensure_size impl.out ((8 + size) % 4294967296)
  (r.1 + 8, { impl with out := r.2 })

def pw_connection_end_write (impl : pw_connection_impl) (dest_id opcode size : Nat) :
    pw_connection_impl :=
  let r := connection_ensure_size impl.out ((8 + size) % 4294967296)
  let p := r.1
  let buf := r.2
  let mem := store32 buf.buffer_data p (dest_id % 4294967296)
  let mem := store32 mem (p + 4) (((opcode <<< 24) ||| (size &&& 0xffffff)) % 4294967296)
  { impl with out := { buf with
      buffer_data := mem,
      buffer_size := buf.buffer_size + (8 + size) % 4294967296 } }

/-- The descriptors placed in the `SCM_RIGHTS` message by `pw_connection_flush`. -/
def flush_fds (buf : buffer) : List Int :=
  (load 0 buf.fds 0 buf.n_fds).map (fun f => if f > 0 then f else -f)

/-- The `sendmsg` loop of `pw_connection_flush` and what follows it (lines 344 to
365).  The kernel accepts at most `iov_len` bytes. -/
def flush_send : List sendmsg_ret → pw_connection_impl →
    Option (Bool × pw_connection_impl × Option sent × List sendmsg_ret)
  | [], _ => none
  | .eintr :: rest, impl => flush_send rest impl
  | .error :: rest, impl => some (false, impl, none, rest)
  | .ok k :: rest, impl =>
    let len := min k impl.out.buffer_size
    some (true,
      { impl with out := { impl.out with
          buffer_size := impl.out.buffer_size - len, n_fds := 0 } },
      some { bytes := load 0 impl.out.buffer_data 0 len, fds := flush_fds impl.out },
      rest)

/-- The function `pw_connection_flush`: the result, the connection afterwards, what
went on the wire and the unused `sendmsg` outcomes. -/
def pw_connection_flush (script : List sendmsg_ret) (impl : pw_connection_impl) :
    Option (Bool × pw_connection_impl × Option sent × List sendmsg_ret) :=
  if impl.out.buffer_size = 0 then some (true, impl, none, script)
  else flush_send script impl

def pw_connection_clear (impl : pw_connection_impl) : Bool × pw_connection_impl :=
  (true, { impl with
    out := clear_buffer impl.out,
    in_ := { clear_buffer impl.in_ with update := true } })

/-! ## Callers used to state the properties -/

/-- A message as the protocol sees it. -/
structure msg where
  dest_id : Nat
  opcode : Nat
  payload : List Nat
deriving DecidableEq

/-- The wire frame of a message: the word `dest_id`, the word
`(opcode << 24) | len`, then the payload. -/
def frame (m : msg) : List Nat :=
  encode32 m.dest_id ++ encode32 ((m.opcode <<< 24) ||| m.payload.length) ++ m.payload

/-- A writer: `begin_write`, copy the payload to the scratch position, `end_write`. -/
def write_msg (impl : pw_connection_impl) (m : msg) : pw_connection_impl :=
  let r := pw_connection_begin_write impl m.payload.length
  let impl1 := { r.2 with out := { r.2.out with
    buffer_data := store 0 r.2.out.buffer_data r.1 m.payload } }
  pw_connection_end_write impl1 m.dest_id m.opcode m.payload.length

/-- A writer that writes the given messages one after the other. -/
def write_msgs (impl : pw_connection_impl) (ms : List msg) : pw_connection_impl :=
  ms.foldl write_msg impl

/-- The bytes the outbound buffer holds: `buffer_data[0 .. buffer_size)`. -/
def buffered (buf : buffer) : List Nat :=
  load 0 buf.buffer_data 0 buf.buffer_size

/-- The message a `message` return designates: the payload is read through the
returned view at the time of the return. -/
def delivered (r : get_next_ret) (buf : buffer) : Option msg :=
  match r with
  | .message opcode dest_id dt sz =>
    some { dest_id := dest_id, opcode := opcode, payload := load 0 buf.buffer_data dt sz }
  | _ => none

/-- The field ranges of a message: a 32-bit destination id, an 8-bit opcode and
a payload shorter than `2^24` bytes. -/
def msg_ok (m : msg) : Prop :=
  m.dest_id < 4294967296 ∧ m.opcode < 256 ∧ m.payload.length < 16777216

instance (m : msg) : Decidable (msg_ok m) := by
  unfold msg_ok
  infer_instance

/-- An inbound buffer as `pw_connection_new` and `clear_buffer` leave it. -/
def inbound_empty (buf : buffer) : Prop :=
  buf.buffer_size = 0 ∧ buf.offset = 0 ∧ buf.size = 0 ∧ buf.update = true

instance (buf : buffer) : Decidable (inbound_empty buf) := by
  unfold inbound_empty
  infer_instance

/-- Every `recvmsg` of the call `get_next_again script buf` returns no more bytes
than the `iov_len` it was offered. -/
def recv_within_iov : List recvmsg_ret → buffer → Bool
  | [], _ => true
  | .eintr :: rest, buf => recv_within_iov rest buf
  | .error :: _, _ => true
  | .ok bytes control :: rest, buf =>
    decide (bytes.length ≤ recv_iov_len buf) &&
    match get_next_parse { refill_buffer_ok buf bytes control with update := false } with
    | .ret _ _ => true
    | .again buf1 => recv_within_iov rest buf1

/-- The script in which every `recvmsg` succeeds with the given bytes and
control messages. -/
def recv_chunks (chunks : List (List Nat × List cmsghdr)) : List recvmsg_ret :=
  chunks.map (fun c => recvmsg_ret.ok c.1 c.2)

/-- The pieces of a byte stream that arrives one byte per receive. -/
def bytewise (bytes : List Nat) : List (List Nat × List cmsghdr) :=
  bytes.map (fun b => ([b], []))

/-- A reader that calls `pw_connection_get_next` the given number of times and
copies out what each call delivered (`none` for a call that returned `false`). -/
def read_msgs : Nat → List recvmsg_ret → pw_connection_impl →
    Option (List (Option msg) × pw_connection_impl × List recvmsg_ret)
  | 0, script, impl => some ([], impl, script)
  | k + 1, script, impl =>
    match pw_connection_get_next script impl with
    | none => none
    | some (r, impl1, rest) =>
      match read_msgs k rest impl1 with
      | none => none
      | some (rs, impl2, rest2) => some (delivered r impl1.in_ :: rs, impl2, rest2)

/-- The inbound descriptor sequence of a buffer: `fds[0 .. n_fds)`. -/
def held (buf : buffer) : List Int :=
  load 0 buf.fds 0 buf.n_fds

/-- The descriptors of the last `SCM_RIGHTS` message in a list of control
messages, as `refill_buffer` keeps them; `none` when there is no such message. -/
def control_rights : List cmsghdr → Option (List Int)
  | [] => none
  | c :: rest =>
    match control_rights rest with
    | some fds => some fds
    | none =>
      match c with
      | .scm_rights fds => some (fds.take MAX_FDS)
      | .other => none

/-- The descriptors of the last `SCM_RIGHTS` message that the successful
receives of a script carry; `none` when no receive carries one. -/
def last_rights : List recvmsg_ret → Option (List Int)
  | [] => none
  | r :: rest =>
    match last_rights rest with
    | some fds => some fds
    | none =>
      match r with
      | .ok _ control => control_rights control
      | _ => none

/-- The outbound descriptor sequence: `out.fds[0 .. out.n_fds)`. -/
def staged (impl : pw_connection_impl) : List Int :=
  load 0 impl.out.fds 0 impl.out.n_fds

/-- A caller that stages the given descriptors one after the other; returns the
indices obtained and the connection afterwards. -/
def add_fds (impl : pw_connection_impl) : List Int → List Nat × pw_connection_impl
  | [] => ([], impl)
  | fd :: rest =>
    let r := pw_connection_add_fd impl fd
    let rr := add_fds r.2 rest
    (r.1 :: rr.1, rr.2)

/-- The capacity and descriptor-count invariant of one buffer. -/
def buffer_inv (buf : buffer) : Prop :=
  buf.buffer_size ≤ buf.buffer_maxsize ∧ buf.n_fds ≤ MAX_FDS

instance (buf : buffer) : Decidable (buffer_inv buf) := by
  unfold buffer_inv
  infer_instance

/-- The capacity and descriptor-count invariant of a connection. -/
def connection_inv (impl : pw_connection_impl) : Prop :=
  buffer_inv impl.in_ ∧ buffer_inv impl.out

instance (impl : pw_connection_impl) : Decidable (connection_inv impl) := by
  unfold connection_inv
  infer_instance

/-- The inbound buffer of a new connection after one receive, `update` cleared,
as the parser sees it. -/
def inbound_after (bytes : List Nat) : buffer :=
  { refill_buffer_ok (pw_connection_new 4).in_ bytes [] with update := false }

/-- A message whose payload fills what is left of a new 4096-byte buffer behind
its header. -/
def msg_4088 : msg :=
  { dest_id := 7, opcode := 9, payload := List.replicate 4088 1 }

/-! ## Shared memory block

A shallow embedding of `src/pinos/client/mem.c` (compiled with `USE_MEMFD`
undefined, as the `#undef` in the file fixes).  The operating system is the
environment: the answers of the system calls are given, and their effect on the
resources of the process is explicit. -/

/-- Modelled from the spec: the enumeration `PinosMemblockFlags` is declared in
`mem.h`, outside the sources at hand; the spec names its four flags (backed by a
descriptor, sealed, mapped readable, mapped writable).  A value of the bit set
is given by its four bits. -/
structure PinosMemblockFlags where
  WITH_FD : Bool
  SEAL : Bool
  MAP_READ : Bool
  MAP_WRITE : Bool
deriving DecidableEq

/-- The test `flags & PINOS_MEMBLOCK_FLAG_MAP_READWRITE`: read or write mapping
is requested. -/
def PinosMemblockFlags.MAP_READWRITE (flags : PinosMemblockFlags) : Bool :=
  flags.MAP_READ || flags.MAP_WRITE

/-- Modelled from the spec: the result codes of `SpaResult` that `mem.c` returns;
their declaration is outside the sources at hand. -/
inductive SpaResult where
  | SPA_RESULT_OK
  | SPA_RESULT_INVALID_ARGUMENTS
  | SPA_RESULT_ERRNO
  | SPA_RESULT_NO_MEMORY
deriving DecidableEq

/-- The C struct `PinosMemblock` (declared in `mem.h`), with the four fields
that `mem.c` reads and writes. -/
structure PinosMemblock where
  flags : PinosMemblockFlags
  fd : Int
  ptr : Nat
  size : Nat
deriving DecidableEq

/-- The null pointer. -/
def NULL : Nat := 0

/-- The value of `MAP_FAILED`, `(void *) -1` with 64-bit pointers. -/
def MAP_FAILED : Nat := 18446744073709551615

/-- The resources of the process: the open descriptors, each with the length
of its file, the mappings (address and length), the live heap blocks (address
and size) and the number of names linked in `/dev/shm`. -/
structure process where
  open_files : List (Int × Nat)
  mappings : List (Nat × Nat)
  heap : List (Nat × Nat)
  shm_names : Nat
deriving DecidableEq

/-- A system or library call that `mem.c` performs. -/
inductive syscall where
  | mkostemp
  | unlink
  | ftruncate (fd : Int) (size : Nat)
  | close (fd : Int)
  | mmap (size : Nat) (prot_read prot_write : Bool) (fd : Int)
  | munmap (ptr size : Nat)
  | malloc (size : Nat)
  | free (ptr : Nat)
deriving DecidableEq

/-- The answers of the environment to the calls of one `pinos_memblock_alloc`:
the value returned by `mkostemp` (a descriptor or -1), by `ftruncate` (0 or -1),
by `mmap` (an address or `MAP_FAILED`) and by `malloc` (an address or `NULL`). -/
structure sys_answers where
  mkostemp : Int
  ftruncate : Int
  mmap : Nat
  malloc : Nat
deriving DecidableEq

/-- Effect of `mkostemp`: on success a new name is linked and its file is open,
empty, under the descriptor returned. -/
def sys_mkostemp (p : process) (r : Int) : process :=
  if r = -1 then p
  else { p with open_files := (r, 0) :: p.open_files, shm_names := p.shm_names + 1 }

/-- Effect of `unlink` on the name that `mkostemp` made. -/
def sys_unlink (p : process) : process :=
  { p with shm_names := p.shm_names - 1 }

/-- Set the length of the file behind the first entry of a descriptor. -/
def set_length (fd : Int) (size : Nat) : List (Int × Nat) → List (Int × Nat)
  | [] => []
  | e :: rest => if e.1 = fd then (fd, size) :: rest else e :: set_length fd size rest

/-- Effect of `ftruncate`: on success the file has exactly the length asked for. -/
def sys_ftruncate (p : process) (fd : Int) (size : Nat) (r : Int) : process :=
  if r < 0 then p else { p with open_files := set_length fd size p.open_files }

/-- Effect of `close`. -/
def sys_close (p : process) (fd : Int) : process :=
  { p with open_files := p.open_files.eraseP (fun e => e.1 == fd) }

/-- Effect of `mmap`: on success a mapping of the length asked for exists at the
address returned. -/
def sys_mmap (p : process) (size : Nat) (r : Nat) : process :=
  if r = MAP_FAILED then p else { p with mappings := (r, size) :: p.mappings }

/-- Effect of `munmap`. -/
def sys_munmap (p : process) (ptr size : Nat) : process :=
  { p with mappings := p.mappings.erase (ptr, size) }

/-- Effect of `malloc`: on success a block of the size asked for is live at the
address returned. -/
def sys_malloc (p : process) (size : Nat) (r : Nat) : process :=
  if r = NULL then p else { p with heap := (r, size) :: p.heap }

/-- Effect of `free`; `free (NULL)` does nothing. -/
def sys_free (p : process) (ptr : Nat) : process :=
  if ptr = NULL then p else { p with heap := p.heap.eraseP (fun e => e.1 == ptr) }

/-- The function `pinos_memblock_alloc`.  The output target `mem` is `none` for
a null pointer and otherwise the content of the caller's struct.  Returns the
result code, the struct afterwards, the resources afterwards and the calls
performed, in order. -/
def pinos_memblock_alloc (flags : PinosMemblockFlags) (size : Nat)
    (mem : Option PinosMemblock) (ans : sys_answers) (p : process) :
    SpaResult × Option PinosMemblock × process × List syscall :=
  match mem with
  | none => (.SPA_RESULT_INVALID_ARGUMENTS, none, p, [])
  | some m0 =>
    if size = 0 then (.SPA_RESULT_INVALID_ARGUMENTS, some m0, p, [])
    else
      let m1 := { m0 with flags := flags, size := size }
      if flags.WITH_FD then
        let m2 := { m1 with fd := ans.mkostemp }
        let p1 := sys_mkostemp p ans.mkostemp
        if m2.fd = -1 then (.SPA_RESULT_ERRNO, some m2, p1, [.mkostemp])
        else
          let p2 := sys_unlink p1
          let p3 := sys_ftruncate p2 m2.fd size ans.ftruncate
          if ans.ftruncate < 0 then
            (.SPA_RESULT_ERRNO, some m2, sys_close p3 m2.fd,
              [.mkostemp, .unlink, .ftruncate m2.fd size, .close m2.fd])
          else if flags.MAP_READWRITE then
            let m3 := { m2 with ptr := ans.mmap }
            let p4 := sys_mmap p3 size ans.mmap
            if m3.ptr = MAP_FAILED then
              (.SPA_RESULT_NO_MEMORY, some m3, p4,
                [.mkostemp, .unlink, .ftruncate m2.fd size,
                 .mmap size flags.MAP_READ flags.MAP_WRITE m2.fd])
            else
              (.SPA_RESULT_OK, some m3, p4,
                [.mkostemp, .unlink, .ftruncate m2.fd size,
                 .mmap size flags.MAP_READ flags.MAP_WRITE m2.fd])
          else
            (.SPA_RESULT_OK, some { m2 with ptr := NULL }, p3,
              [.mkostemp, .unlink, .ftruncate m2.fd size])
      else
        let m2 := { m1 with ptr := ans.malloc }
        let p1 := sys_malloc p size ans.malloc
        if m2.ptr = NULL then (.SPA_RESULT_NO_MEMORY, some m2, p1, [.malloc size])
        else (.SPA_RESULT_OK, some { m2 with fd := -1 }, p1, [.malloc size])

/-- The `munmap` of `pinos_memblock_free`, performed when `ptr` is not null. -/
def free_unmap (m : PinosMemblock) (p : process) : process × List syscall :=
  if m.ptr ≠ NULL then (sys_munmap p m.ptr m.size, [.munmap m.ptr m.size]) else (p, [])

/-- The `close` of `pinos_memblock_free`, performed when `fd` is not -1. -/
def free_close (m : PinosMemblock) (p : process) : process × List syscall :=
  if m.fd ≠ -1 then (sys_close p m.fd, [.close m.fd]) else (p, [])

/-- The function `pinos_memblock_free`: the struct afterwards, the resources
afterwards and the calls performed, in order. -/
def pinos_memblock_free (mem : Option PinosMemblock) (p : process) :
    Option PinosMemblock × process × List syscall :=
  match mem with
  | none => (none, p, [])
  | some m =>
    if m.flags.WITH_FD then
      let r1 := free_unmap m p
      let r2 := free_close m r1.1
      (some { m with ptr := NULL, fd := -1 }, r2.1, r1.2 ++ r2.2)
    else
      (some { m with ptr := NULL, fd := -1 }, sys_free p m.ptr, [.free m.ptr])

/-! ## Memory lemmas -/

theorem peek_store {α : Type} (d : α) (mem : List α) (pos : Nat) (cells : List α) (i : Nat) :
    peek d (store d mem pos cells) i =
      if i < pos then peek d mem i
      else if i < pos + cells.length then peek d cells (i - pos)
      else peek d mem i := by
  unfold peek store
  simp only [List.getD_eq_getElem?_getD, List.append_assoc]
  by_cases h1 : i < pos
  · simp only [h1, if_true]
    by_cases h2 : i < mem.length
    · rw [List.getElem?_append_left (by simp; omega)]
      simp [List.getElem?_take, h1]
    · rw [List.getElem?_append_right (by simp; omega)]
      rw [List.getElem?_append_left (by simp; omega)]
      have h3 : mem[i]? = none := List.getElem?_eq_none (by omega)
      simp only [h3, List.getElem?_replicate, Option.getD_none]
      split <;> rfl
  · simp only [h1, if_false]
    rw [List.getElem?_append_right (by simp; omega)]
    rw [List.getElem?_append_right (by simp; omega)]
    by_cases h2 : i < pos + cells.length
    · simp only [h2, if_true]
      rw [List.getElem?_append_left (by simp; omega)]
      congr 2
      simp
      omega
    · simp only [h2, if_false]
      rw [List.getElem?_append_right (by simp; omega)]
      simp only [List.getElem?_drop, List.length_take, List.length_replicate]
      congr 2
      omega

theorem length_load {α : Type} (d : α) (mem : List α) (pos n : Nat) :
    (load d mem pos n).length = n := by
  simp [load]

theorem peek_load {α : Type} (d : α) (mem : List α) (pos n i : Nat) (h : i < n) :
    peek d (load d mem pos n) i = peek d mem (pos + i) := by
  simp [peek, load, List.getD_eq_getElem?_getD, List.getElem?_map, List.getElem?_range h]

theorem load_eq_iff {α : Type} (d : α) (mem : List α) (pos n : Nat) (l : List α) :
    load d mem pos n = l ↔ l.length = n ∧ ∀ i, i < n → peek d mem (pos + i) = peek d l i := by
  constructor
  · intro h
    subst h
    exact ⟨length_load d mem pos n, fun i hi => (peek_load d mem pos n i hi).symm⟩
  · rintro ⟨hl, hp⟩
    apply List.ext_getElem
    · simp [length_load, hl]
    · intro i h1 h2
      have hi : i < n := by simpa [length_load] using h1
      have := hp i hi
      simp only [peek, List.getD_eq_getElem?_getD, List.getElem?_eq_getElem h2,
        Option.getD_some] at this
      simp [load, peek, List.getD_eq_getElem?_getD, this]

theorem load_congr {α : Type} (d : α) (mem1 mem2 : List α) (pos n : Nat)
    (h : ∀ i, i < n → peek d mem1 (pos + i) = peek d mem2 (pos + i)) :
    load d mem1 pos n = load d mem2 pos n := by
  rw [load_eq_iff]
  refine ⟨length_load d mem2 pos n, fun i hi => ?_⟩
  rw [peek_load d mem2 pos n i hi]
  exact h i hi

theorem load_add {α : Type} (d : α) (mem : List α) (pos a b : Nat) :
    load d mem pos (a + b) = load d mem pos a ++ load d mem (pos + a) b := by
  rw [load_eq_iff]
  refine ⟨by simp [length_load], fun i hi => ?_⟩
  unfold peek
  by_cases h : i < a
  · rw [List.getD_append _ _ _ _ (by simpa [length_load] using h)]
    exact (peek_load d mem pos a i h).symm
  · rw [List.getD_append_right _ _ _ _ (by simpa [length_load] using h)]
    have := peek_load d mem (pos + a) b (i - a) (by omega)
    simp only [length_load]
    unfold peek at this
    rw [this]
    congr 1
    omega

theorem load_store_same {α : Type} (d : α) (mem : List α) (pos : Nat) (cells : List α) :
    load d (store d mem pos cells) pos cells.length = cells := by
  rw [load_eq_iff]
  refine ⟨rfl, fun i hi => ?_⟩
  rw [peek_store]
  simp [hi]

theorem load_store_before {α : Type} (d : α) (mem : List α) (pos : Nat) (cells : List α)
    (q n : Nat) (h : q + n ≤ pos) :
    load d (store d mem pos cells) q n = load d mem q n := by
  apply load_congr
  intro i hi
  rw [peek_store]
  simp [show q + i < pos by omega]

theorem load_store_after {α : Type} (d : α) (mem : List α) (pos : Nat) (cells : List α)
    (q n : Nat) (h : pos + cells.length ≤ q) :
    load d (store d mem pos cells) q n = load d mem q n := by
  apply load_congr
  intro i hi
  rw [peek_store]
  simp [show ¬ q + i < pos by omega, show ¬ q + i < pos + cells.length by omega]

/-! ## Words -/

theorem load32_eq (mem : List Nat) (pos w : Nat) (hw : w < 4294967296)
    (h : load 0 mem pos 4 = encode32 w) : load32 mem pos = w := by
  rw [load_eq_iff] at h
  have h0 := h.2 0 (by omega)
  have h1 := h.2 1 (by omega)
  have h2 := h.2 2 (by omega)
  have h3 := h.2 3 (by omega)
  simp only [encode32, peek, List.getD_cons_zero, List.getD_cons_succ, Nat.add_zero] at h0 h1 h2 h3
  unfold load32 peek
  rw [h0, h1, h2, h3]
  omega

theorem header_word (o n : Nat) (hn : n < 16777216) :
    (o <<< 24) ||| n = o * 16777216 + n := by
  rw [Nat.shiftLeft_eq, show (2 : Nat) ^ 24 = 16777216 by norm_num, Nat.mul_comm]
  exact (Nat.mul_add_lt_is_or (show n < 2 ^ 24 by omega) o).symm

theorem and_ffffff (n : Nat) : n &&& 0xffffff = n % 16777216 := by
  exact Nat.and_pow_two_sub_one_eq_mod n 24

theorem header_word_opcode (o n : Nat) (ho : o < 256) (hn : n < 16777216) :
    ((o * 16777216 + n) >>> 24) % 256 = o := by
  rw [Nat.shiftRight_eq_div_pow]
  omega

theorem header_word_len (o n : Nat) (hn : n < 16777216) :
    (o * 16777216 + n) &&& 0xffffff = n := by
  rw [and_ffffff]
  omega

theorem length_encode32 (w : Nat) : (encode32 w).length = 4 := rfl

theorem length_frame (m : msg) : (frame m).length = 8 + m.payload.length := by
  simp [frame, length_encode32]
  omega

/-! ## Parsing one frame -/

theorem peek_of_load {α : Type} (d : α) (mem : List α) (pos n : Nat) (l : List α)
    (h : load d mem pos n = l) (i : Nat) (hi : i < n) : peek d mem (pos + i) = peek d l i :=
  ((load_eq_iff d mem pos n l).1 h).2 i hi

theorem peek_take {α : Type} (d : α) (l : List α) (k i : Nat) (h : i < k) :
    peek d (l.take k) i = peek d l i := by
  simp [peek, List.getD_eq_getElem?_getD, List.getElem?_take, h]

theorem peek_frame_lo (m : msg) (i : Nat) (hi : i < 4) :
    peek 0 (frame m) i = peek 0 (encode32 m.dest_id) i := by
  unfold frame peek
  rw [List.append_assoc, List.getD_append _ _ _ _ (by simpa [length_encode32] using hi)]

theorem peek_frame_hi (m : msg) (i : Nat) (hi : i < 4) :
    peek 0 (frame m) (4 + i) = peek 0 (encode32 ((m.opcode <<< 24) ||| m.payload.length)) i := by
  unfold frame peek
  rw [List.append_assoc, List.getD_append_right _ _ _ _ (by simp [length_encode32]),
    List.getD_append _ _ _ _ (by simpa [length_encode32] using hi)]
  simp [length_encode32]

theorem peek_frame_payload (m : msg) (i : Nat) :
    peek 0 (frame m) (8 + i) = peek 0 m.payload i := by
  unfold frame peek
  rw [List.getD_append_right _ _ _ _ (by simp [length_encode32])]
  simp [length_encode32]

/-- The header words read back from a buffer that holds the first 8 bytes of a
frame at `pos`. -/
theorem load32_frame (m : msg) (hm : msg_ok m) (mem : List Nat) (pos : Nat)
    (hl : ∀ i, i < 8 → peek 0 mem (pos + i) = peek 0 (frame m) i) :
    load32 mem pos = m.dest_id ∧
    load32 mem (pos + 4) = m.opcode * 16777216 + m.payload.length := by
  obtain ⟨hd, ho, hn⟩ := hm
  constructor
  · apply load32_eq _ _ _ hd
    rw [load_eq_iff]
    refine ⟨length_encode32 _, fun i hi => ?_⟩
    rw [hl i (by omega), peek_frame_lo m i hi]
  · rw [← header_word _ _ hn]
    apply load32_eq _ _ _ (by rw [header_word _ _ hn]; omega)
    rw [load_eq_iff]
    refine ⟨length_encode32 _, fun i hi => ?_⟩
    rw [Nat.add_assoc, hl (4 + i) (by omega), peek_frame_hi m i hi]

/-- What one pass of the parser does on a buffer that holds `a > 0` bytes past
the cursor, these being the start of the frame of `m` (and anything behind it). -/
theorem get_next_parse_frame (m : msg) (hm : msg_ok m) (buf : buffer) (a : Nat)
    (hsz : buf.buffer_size = buf.offset + a) (ha : 0 < a)
    (hl : ∀ i, i < a → i < (frame m).length →
      peek 0 buf.buffer_data (buf.offset + i) = peek 0 (frame m) i) :
    get_next_parse buf =
      if a < 8 then .again { (connection_ensure_size buf 8).2 with update := true }
      else if m.payload.length > a - 8 then
        .again { (connection_ensure_size buf m.payload.length).2 with update := true }
      else
        .ret (.message m.opcode m.dest_id (buf.offset + 8) m.payload.length)
          { buf with size := m.payload.length, data := buf.offset + 8,
                     offset := buf.offset + 8 } := by
  unfold get_next_parse
  have h1 : ¬ buf.offset ≥ buf.buffer_size := by omega
  have h2 : buf.buffer_size - buf.offset = a := by omega
  simp only [h1, if_false, h2]
  by_cases h8 : a < 8
  · simp only [h8, if_true]
  · simp only [h8, if_false]
    have hw := load32_frame m hm buf.buffer_data buf.offset
      (fun i hi => hl i (by omega) (by rw [length_frame]; omega))
    obtain ⟨hd, ho, hn⟩ := hm
    rw [hw.1, hw.2, header_word_opcode _ _ ho hn, header_word_len _ _ hn,
      Nat.mod_eq_of_lt (show m.payload.length < 4294967296 by omega)]

/-! ## Refill and growth leave the rest of the buffer alone -/

theorem refill_control_frame (control : List cmsghdr) (buf : buffer) :
    (refill_control buf control).buffer_data = buf.buffer_data ∧
    (refill_control buf control).buffer_size = buf.buffer_size ∧
    (refill_control buf control).buffer_maxsize = buf.buffer_maxsize ∧
    (refill_control buf control).offset = buf.offset ∧
    (refill_control buf control).size = buf.size ∧
    (refill_control buf control).data = buf.data ∧
    (refill_control buf control).update = buf.update := by
  induction control generalizing buf with
  | nil => simp [refill_control]
  | cons c rest ih =>
    cases c with
    | other => simpa [refill_control] using ih buf
    | scm_rights fds => simpa [refill_control] using ih _

theorem refill_buffer_ok_frame (buf : buffer) (bytes : List Nat) (control : List cmsghdr) :
    (refill_buffer_ok buf bytes control).buffer_data =
      store 0 buf.buffer_data buf.buffer_size (bytes.take (recv_iov_len buf)) ∧
    (refill_buffer_ok buf bytes control).buffer_size =
      buf.buffer_size + (bytes.take (recv_iov_len buf)).length ∧
    (refill_buffer_ok buf bytes control).buffer_maxsize = buf.buffer_maxsize ∧
    (refill_buffer_ok buf bytes control).offset = buf.offset ∧
    (refill_buffer_ok buf bytes control).size = buf.size ∧
    (refill_buffer_ok buf bytes control).data = buf.data ∧
    (refill_buffer_ok buf bytes control).update = buf.update := by
  unfold refill_buffer_ok
  exact refill_control_frame control _

theorem connection_ensure_size_frame (buf : buffer) (size : Nat) :
    (connection_ensure_size buf size).1 = buf.buffer_size ∧
    (connection_ensure_size buf size).2 =
      { buf with buffer_maxsize := (connection_ensure_size buf size).2.buffer_maxsize } ∧
    buf.buffer_size + size ≤ (connection_ensure_size buf size).2.buffer_maxsize ∧
    buf.buffer_maxsize ≤ (connection_ensure_size buf size).2.buffer_maxsize := by
  unfold connection_ensure_size
  split
  · refine ⟨rfl, rfl, ?_, ?_⟩
    · show buf.buffer_size + size ≤ SPA_ROUND_UP_N (buf.buffer_size + size) MAX_BUFFER_SIZE
      unfold SPA_ROUND_UP_N MAX_BUFFER_SIZE
      omega
    · show buf.buffer_maxsize ≤ SPA_ROUND_UP_N (buf.buffer_size + size) MAX_BUFFER_SIZE
      unfold SPA_ROUND_UP_N MAX_BUFFER_SIZE
      omega
  · exact ⟨rfl, rfl, by simp only; omega, Nat.le_refl _⟩

theorem ensure_size_fst (buf : buffer) (size : Nat) :
    (connection_ensure_size buf size).1 = buf.buffer_size := by
  unfold connection_ensure_size
  split <;> rfl

theorem ensure_size_data (buf : buffer) (size : Nat) :
    (connection_ensure_size buf size).2.buffer_data = buf.buffer_data := by
  unfold connection_ensure_size
  split <;> rfl

theorem ensure_size_size (buf : buffer) (size : Nat) :
    (connection_ensure_size buf size).2.buffer_size = buf.buffer_size := by
  unfold connection_ensure_size
  split <;> rfl

theorem ensure_size_offset (buf : buffer) (size : Nat) :
    (connection_ensure_size buf size).2.offset = buf.offset := by
  unfold connection_ensure_size
  split <;> rfl

theorem ensure_size_fds (buf : buffer) (size : Nat) :
    (connection_ensure_size buf size).2.fds = buf.fds ∧
    (connection_ensure_size buf size).2.n_fds = buf.n_fds := by
  unfold connection_ensure_size
  split <;> exact ⟨rfl, rfl⟩

/-- The loop at `again` agrees with `refill_buffer` followed by one pass of the
parser. -/
theorem get_next_again_refill (script : List recvmsg_ret) (buf : buffer) :
    get_next_again script buf =
      match refill_buffer script buf with
      | none => none
      | some (false, buf1, rest) => some (.recv_error, buf1, rest)
      | some (true, buf1, rest) =>
        match get_next_parse { buf1 with update := false } with
        | .ret r buf2 => some (r, buf2, rest)
        | .again buf2 => get_next_again rest buf2 := by
  induction script with
  | nil => rfl
  | cons r rest ih =>
    cases r with
    | ok bytes control => simp [get_next_again, refill_buffer]
    | eintr => simpa [get_next_again, refill_buffer] using ih
    | error => simp [get_next_again, refill_buffer]

/-! ## A frame that arrives in pieces -/

theorem peek_drop {α : Type} (d : α) (l : List α) (r i : Nat) :
    peek d (l.drop r) i = peek d l (r + i) := by
  simp [peek, List.getD_eq_getElem?_getD, List.getElem?_drop]

/-- The loop at `again` on a buffer that holds the first `r` bytes of the frame
of `m` past the cursor, when the following receives bring the rest of the frame
in non-empty pieces: the loop consumes all of them and returns the message. -/
theorem get_next_again_chunks (m : msg) (hm : msg_ok m) :
    ∀ (chunks : List (List Nat × List cmsghdr)) (buf : buffer) (r : Nat),
      buf.buffer_size = buf.offset + r →
      r < (frame m).length →
      (∀ i, i < r → peek 0 buf.buffer_data (buf.offset + i) = peek 0 (frame m) i) →
      (chunks.map Prod.fst).flatten = (frame m).drop r →
      (∀ c ∈ chunks, c.1 ≠ []) →
      recv_within_iov (recv_chunks chunks) buf = true →
      ∃ buf1,
        get_next_again (recv_chunks chunks) buf =
          some (.message m.opcode m.dest_id (buf.offset + 8) m.payload.length, buf1, []) ∧
        load 0 buf1.buffer_data (buf.offset + 8) m.payload.length = m.payload ∧
        buf1.offset = buf.offset + 8 ∧ buf1.size = m.payload.length ∧
        buf1.buffer_size = buf.offset + (frame m).length ∧ buf1.update = false := by
  intro chunks
  induction chunks with
  | nil =>
    intro buf r _ hr _ hflat _ _
    have := congrArg List.length hflat
    simp at this
    omega
  | cons c cs ih =>
    intro buf r hsz hr hl hflat hne hfit
    obtain ⟨bytes, control⟩ := c
    have hb : bytes ≠ [] := hne (bytes, control) (List.mem_cons_self _ _)
    have hblen : 0 < bytes.length := List.length_pos.2 hb
    simp only [List.map_cons, List.flatten_cons] at hflat
    simp only [recv_chunks, List.map_cons, recv_within_iov, Bool.and_eq_true,
      decide_eq_true_eq] at hfit
    obtain ⟨hiov, hfit⟩ := hfit
    have htake : bytes.take (recv_iov_len buf) = bytes := List.take_of_length_le hiov
    obtain ⟨hdata, hsize, -, hoff, -, -, -⟩ := refill_buffer_ok_frame buf bytes control
    rw [htake] at hdata hsize
    have hle : r + bytes.length ≤ (frame m).length := by
      have := congrArg List.length hflat
      simp only [List.length_append, List.length_drop] at this
      omega
    -- the buffer after this receive holds the first `r + bytes.length` bytes
    have hl2 : ∀ i, i < r + bytes.length → i < (frame m).length →
        peek 0 (store 0 buf.buffer_data buf.buffer_size bytes) (buf.offset + i)
          = peek 0 (frame m) i := by
      intro i hi _
      rw [peek_store]
      by_cases h : i < r
      · simp only [show buf.offset + i < buf.buffer_size by omega, if_true]
        exact hl i h
      · simp only [show ¬ buf.offset + i < buf.buffer_size by omega, if_false,
          show buf.offset + i < buf.buffer_size + bytes.length by omega, if_true]
        have h1 : peek 0 (frame m) i = peek 0 ((frame m).drop r) (i - r) := by
          rw [peek_drop]
          congr 1
          omega
        rw [h1, ← hflat]
        unfold peek
        rw [List.getD_append _ _ _ _ (by omega)]
        congr 1
        omega
    have hparse := get_next_parse_frame m hm
      { refill_buffer_ok buf bytes control with update := false } (r + bytes.length)
      (by simp only [hsize, hoff]; omega) (by omega)
      (by simp only [hdata, hoff]; exact hl2)
    simp only [recv_chunks, List.map_cons, get_next_again]
    rw [hparse] at hfit ⊢
    by_cases h8 : r + bytes.length < 8
    · simp only [h8, if_true] at hfit ⊢
      obtain ⟨-, he, -, -⟩ := connection_ensure_size_frame
        { refill_buffer_ok buf bytes control with update := false } 8
      rw [he] at hfit ⊢
      have := ih _ (r + bytes.length)
        (by simp only [hsize, hoff]; omega) (by rw [length_frame]; omega)
        (by
          intro i hi
          simp only [hdata, hoff]
          exact hl2 i hi (by rw [length_frame]; omega))
        (by
          have h1 := congrArg (List.drop bytes.length) hflat
          rw [List.drop_append_of_le_length (Nat.le_refl _)] at h1
          simpa [Nat.add_comm] using h1)
        (fun c hc => hne c (List.mem_cons_of_mem _ hc)) hfit
      simpa only [hoff] using this
    · simp only [h8, if_false] at hfit ⊢
      by_cases hn : m.payload.length > r + bytes.length - 8
      · simp only [hn, if_true] at hfit ⊢
        obtain ⟨-, he, -, -⟩ := connection_ensure_size_frame
          { refill_buffer_ok buf bytes control with update := false } m.payload.length
        rw [he] at hfit ⊢
        have := ih _ (r + bytes.length)
          (by simp only [hsize, hoff]; omega) (by rw [length_frame]; omega)
          (by
            intro i hi
            simp only [hdata, hoff]
            exact hl2 i hi (by rw [length_frame]; omega))
          (by
            have h1 := congrArg (List.drop bytes.length) hflat
            rw [List.drop_append_of_le_length (Nat.le_refl _)] at h1
            simpa [Nat.add_comm] using h1)
          (fun c hc => hne c (List.mem_cons_of_mem _ hc)) hfit
        simpa only [hoff] using this
      · simp only [hn, if_false] at hfit ⊢
        have hfl := length_frame m
        have hall : r + bytes.length = (frame m).length := by omega
        have hcs : cs = [] := by
          have h1 := congrArg List.length hflat
          simp only [List.length_append, List.length_drop] at h1
          have h2 : ((cs.map Prod.fst).flatten).length = 0 := by omega
          have h3 := List.length_eq_zero.1 h2
          rw [List.flatten_eq_nil_iff] at h3
          cases cs with
          | nil => rfl
          | cons c1 cs1 =>
            exfalso
            exact hne c1 (by simp) (h3 c1.1 (by simp))
        subst hcs
        simp only [hoff, List.map_nil]
        refine ⟨_, rfl, ?_, rfl, rfl, ?_, rfl⟩
        · simp only [hdata]
          rw [load_eq_iff]
          refine ⟨rfl, fun i hi => ?_⟩
          rw [Nat.add_assoc, hl2 (8 + i) (by omega) (by omega), peek_frame_payload]
        · simp only [hsize]
          omega

/-! ## Staging descriptors -/

theorem mem_load_iff {α : Type} (d : α) (mem : List α) (pos n : Nat) (a : α) :
    a ∈ load d mem pos n ↔ ∃ i, i < n ∧ peek d mem (pos + i) = a := by
  simp [load]

theorem nodup_load_iff {α : Type} (d : α) (mem : List α) (pos n : Nat) :
    (load d mem pos n).Nodup ↔
      ∀ i j, i < j → j < n → peek d mem (pos + i) ≠ peek d mem (pos + j) := by
  unfold List.Nodup
  rw [List.pairwise_iff_getElem]
  constructor
  · intro h i j hij hj
    have := h i j (by simp [length_load]; omega) (by simp [length_load]; omega) hij
    simpa [load] using this
  · intro h i j hi hj hij
    have hj2 : j < n := by simpa [length_load] using hj
    simpa [load] using h i j hij hj2

theorem find_range_none (p : Nat → Bool) (n : Nat) (h : ∀ j, j < n → p j = false) :
    (List.range n).find? p = none := by
  rw [List.find?_eq_none]
  intro x hx
  simp [h x (List.mem_range.1 hx)]

theorem find_range_some (p : Nat → Bool) (n i : Nat) (hi : i < n) (hp : p i = true)
    (hfirst : ∀ j, j < i → p j = false) : (List.range n).find? p = some i := by
  induction n with
  | zero => omega
  | succ n ih =>
    rw [List.range_succ, List.find?_append]
    by_cases h : i < n
    · rw [ih h]
      rfl
    · have : i = n := by omega
      subst this
      rw [find_range_none p i hfirst]
      simp [hp]

theorem add_fd_found (impl : pw_connection_impl) (fd : Int) (i : Nat)
    (hi : i < impl.out.n_fds) (hp : peek 0 impl.out.fds i = fd)
    (hfirst : ∀ j, j < i → peek 0 impl.out.fds j ≠ fd) :
    pw_connection_add_fd impl fd = (i, impl) := by
  unfold pw_connection_add_fd
  rw [find_range_some _ _ i hi (by simpa using hp) (fun j hj => by simpa using hfirst j hj)]

theorem add_fd_absent (impl : pw_connection_impl) (fd : Int)
    (h : ∀ j, j < impl.out.n_fds → peek 0 impl.out.fds j ≠ fd) :
    pw_connection_add_fd impl fd =
      if impl.out.n_fds ≥ MAX_FDS then (UINT32_MINUS_ONE, impl)
      else (impl.out.n_fds, { impl with out := { impl.out with
          fds := store 0 impl.out.fds impl.out.n_fds [fd],
          n_fds := (impl.out.n_fds + 1) % 4294967296 } }) := by
  unfold pw_connection_add_fd
  rw [find_range_none _ _ (fun j hj => by simpa using h j hj)]

/-- The first position of `fd` in the outbound sequence, when there is one. -/
theorem exists_first (impl : pw_connection_impl) (fd : Int) (i : Nat)
    (hi : i < impl.out.n_fds) (hp : peek 0 impl.out.fds i = fd) :
    ∃ k, k ≤ i ∧ peek 0 impl.out.fds k = fd ∧ ∀ j, j < k → peek 0 impl.out.fds j ≠ fd := by
  induction i using Nat.strong_induction_on with
  | _ i ih =>
    by_cases h : ∀ j, j < i → peek 0 impl.out.fds j ≠ fd
    · exact ⟨i, Nat.le_refl _, hp, h⟩
    · push_neg at h
      obtain ⟨j, hj, hpj⟩ := h
      obtain ⟨k, hk, hpk, hfirst⟩ := ih j hj (by omega) hpj
      exact ⟨k, by omega, hpk, hfirst⟩

/-- The three ways `pw_connection_add_fd` ends. -/
theorem add_fd_cases (impl : pw_connection_impl) (fd : Int) :
    (∃ i, i < impl.out.n_fds ∧ peek 0 impl.out.fds i = fd ∧
        (∀ j, j < i → peek 0 impl.out.fds j ≠ fd) ∧
        pw_connection_add_fd impl fd = (i, impl)) ∨
    ((∀ j, j < impl.out.n_fds → peek 0 impl.out.fds j ≠ fd) ∧ MAX_FDS ≤ impl.out.n_fds ∧
        pw_connection_add_fd impl fd = (UINT32_MINUS_ONE, impl)) ∨
    ((∀ j, j < impl.out.n_fds → peek 0 impl.out.fds j ≠ fd) ∧ impl.out.n_fds < MAX_FDS ∧
        pw_connection_add_fd impl fd =
          (impl.out.n_fds, { impl with out := { impl.out with
            fds := store 0 impl.out.fds impl.out.n_fds [fd],
            n_fds := impl.out.n_fds + 1 } })) := by
  by_cases h : ∀ j, j < impl.out.n_fds → peek 0 impl.out.fds j ≠ fd
  · right
    have := add_fd_absent impl fd h
    by_cases hfull : impl.out.n_fds ≥ MAX_FDS
    · left
      simp only [hfull, if_true] at this
      exact ⟨h, hfull, this⟩
    · right
      simp only [hfull, if_false] at this
      have hlt : impl.out.n_fds < MAX_FDS := by omega
      refine ⟨h, hlt, ?_⟩
      rw [this, Nat.mod_eq_of_lt (by unfold MAX_FDS at hlt; omega)]
  · left
    push_neg at h
    obtain ⟨j, hj, hpj⟩ := h
    obtain ⟨k, hk, hpk, hfirst⟩ := exists_first impl fd j hj hpj
    exact ⟨k, by omega, hpk, hfirst, add_fd_found impl fd k (by omega) hpk hfirst⟩

theorem load_self {α : Type} (d : α) (l : List α) : load d l 0 l.length = l := by
  rw [load_eq_iff]
  exact ⟨rfl, fun i _ => by rw [Nat.zero_add]⟩

theorem mem_iff_peek (l : List Int) (v : Int) : v ∈ l ↔ ∃ i, i < l.length ∧ peek 0 l i = v := by
  have := mem_load_iff 0 l 0 l.length v
  rw [load_self] at this
  simpa using this

theorem nodup_iff_peek (l : List Int) :
    l.Nodup ↔ ∀ i j, i < j → j < l.length → peek 0 l i ≠ peek 0 l j := by
  have := nodup_load_iff 0 l 0 l.length
  rw [load_self] at this
  simpa using this

/-- Staging descriptors that are pairwise distinct and not yet staged, while
there is room: they are appended in order. -/
theorem add_fds_distinct : ∀ (vals : List Int) (impl : pw_connection_impl),
    (∀ i, i < vals.length → ∀ j, j < impl.out.n_fds → peek 0 impl.out.fds j ≠ peek 0 vals i) →
    vals.Nodup → impl.out.n_fds + vals.length ≤ MAX_FDS →
    (add_fds impl vals).1 = List.range' impl.out.n_fds vals.length ∧
    (add_fds impl vals).2.out.n_fds = impl.out.n_fds + vals.length ∧
    (∀ j, j < impl.out.n_fds →
      peek 0 (add_fds impl vals).2.out.fds j = peek 0 impl.out.fds j) ∧
    (∀ i, i < vals.length →
      peek 0 (add_fds impl vals).2.out.fds (impl.out.n_fds + i) = peek 0 vals i) := by
  intro vals
  induction vals with
  | nil =>
    intro impl _ _ _
    simp [add_fds]
  | cons v rest ih =>
    intro impl hnew hnd hroom
    simp only [List.length_cons] at hroom hnew
    have habs : ∀ j, j < impl.out.n_fds → peek 0 impl.out.fds j ≠ v := by
      intro j hj
      simpa [peek] using hnew 0 (by omega) j hj
    have hstep := add_fd_absent impl v habs
    have hnot : ¬ impl.out.n_fds ≥ MAX_FDS := by omega
    simp only [hnot, if_false] at hstep
    rw [Nat.mod_eq_of_lt (by unfold MAX_FDS at hroom; omega)] at hstep
    have hnd2 := (List.nodup_cons.1 hnd)
    have hrest := ih (pw_connection_add_fd impl v).2
      (by
        rw [hstep]
        intro i hi j hj
        simp only at hj
        simp only [peek_store]
        by_cases hjn : j < impl.out.n_fds
        · simp only [hjn, if_true]
          simpa [peek] using hnew (i + 1) (by omega) j hjn
        · have hjeq : j = impl.out.n_fds := by omega
          subst hjeq
          simp only [Nat.lt_irrefl, if_false, List.length_singleton, Nat.lt_succ_self, if_true,
            Nat.sub_self]
          intro heq
          apply hnd2.1
          rw [mem_iff_peek]
          exact ⟨i, hi, by simpa [peek] using heq.symm⟩)
      hnd2.2 (by rw [hstep]; simp only; omega)
    rw [hstep] at hrest
    simp only at hrest
    obtain ⟨h1, h2, h3, h4⟩ := hrest
    simp only [add_fds, List.length_cons]
    rw [hstep]
    refine ⟨?_, ?_, ?_, ?_⟩
    · simp only [h1]
      rw [List.range'_succ]
    · rw [h2]
      omega
    · intro j hj
      rw [h3 j (by omega), peek_store]
      simp [hj]
    · intro i hi
      cases i with
      | zero =>
        rw [Nat.add_zero, h3 _ (by omega), peek_store]
        simp [peek]
      | succ i =>
        have := h4 i (by omega)
        rw [show impl.out.n_fds + (i + 1) = impl.out.n_fds + 1 + i by omega, this]
        simp [peek]

/-! ## The first call on an empty inbound buffer -/

theorem get_next_buffer_empty (script : List recvmsg_ret) (buf : buffer)
    (h : inbound_empty buf) : get_next_buffer script buf = get_next_again script buf := by
  obtain ⟨_, h2, h3, h4⟩ := h
  have hb : { buf with offset := buf.offset + buf.size } = buf := by
    cases buf
    simp_all
  unfold get_next_buffer
  simp only []
  rw [if_pos h4, hb]

theorem get_next_buffer_chunks (m : msg) (hm : msg_ok m)
    (chunks : List (List Nat × List cmsghdr)) (buf : buffer) (h : inbound_empty buf)
    (hflat : (chunks.map Prod.fst).flatten = frame m)
    (hne : ∀ c ∈ chunks, c.1 ≠ [])
    (hfit : recv_within_iov (recv_chunks chunks) buf = true) :
    ∃ buf1,
      get_next_buffer (recv_chunks chunks) buf =
        some (.message m.opcode m.dest_id 8 m.payload.length, buf1, []) ∧
      load 0 buf1.buffer_data 8 m.payload.length = m.payload ∧
      buf1.offset = 8 ∧ buf1.size = m.payload.length ∧
      buf1.buffer_size = (frame m).length ∧ buf1.update = false := by
  rw [get_next_buffer_empty _ _ h]
  obtain ⟨h1, h2, _, _⟩ := h
  have := get_next_again_chunks m hm chunks buf 0 (by omega) (by rw [length_frame]; omega)
    (fun i hi => by omega) (by simpa using hflat) hne hfit
  simpa only [h2, Nat.zero_add] using this

/-- The call does not return on a first receive of fewer than 8 bytes: with
only that outcome available it is waiting for the next one. -/
theorem get_next_again_short (bytes : List Nat) (control : List cmsghdr) (buf : buffer)
    (hoff : buf.offset = buf.buffer_size) (hb : bytes ≠ []) (h8 : bytes.length < 8)
    (hfit : bytes.length ≤ recv_iov_len buf) :
    get_next_again [.ok bytes control] buf = none := by
  obtain ⟨-, hsize, -, hoff2, -, -, -⟩ := refill_buffer_ok_frame buf bytes control
  rw [List.take_of_length_le hfit] at hsize
  have hpos : 0 < bytes.length := List.length_pos.2 hb
  simp only [get_next_again, get_next_parse, hsize, hoff2]
  rw [if_neg (by omega), if_pos (by omega)]


/-- Whenever the parser jumps back to `again`, the next receive is offered at
least one byte of room. -/
theorem recv_iov_len_again (buf b : buffer) (h : get_next_parse buf = .again b) :
    1 ≤ recv_iov_len b := by
  unfold get_next_parse at h
  simp only [] at h
  split at h
  · cases h
  · split at h
    · cases h
      have := (connection_ensure_size_frame buf 8).2.2.1
      simp only [recv_iov_len, ensure_size_size]
      omega
    · split at h
      · rename_i hlen
        cases h
        have := (connection_ensure_size_frame buf
          (load32 buf.buffer_data (buf.offset + 4) &&& 0xffffff)).2.2.1
        simp only [recv_iov_len, ensure_size_size]
        omega
      · cases h

/-- A byte stream that arrives one byte per receive always fits the room offered. -/
theorem recv_within_iov_bytewise (bytes : List Nat) :
    ∀ buf : buffer, 1 ≤ recv_iov_len buf →
      recv_within_iov (recv_chunks (bytewise bytes)) buf = true := by
  induction bytes with
  | nil =>
    intro buf _
    rfl
  | cons b bs ih =>
    intro buf h
    simp only [bytewise, recv_chunks, List.map_cons, recv_within_iov, Bool.and_eq_true,
      decide_eq_true_eq, List.length_singleton]
    refine ⟨h, ?_⟩
    cases hparse : get_next_parse { refill_buffer_ok buf [b] [] with update := false } with
    | ret r b1 => rfl
    | again b1 => exact ih b1 (recv_iov_len_again _ b1 hparse)

theorem flatten_bytewise (bytes : List Nat) :
    ((bytewise bytes).map Prod.fst).flatten = bytes := by
  induction bytes with
  | nil => rfl
  | cons b bs ih =>
    simp only [bytewise, List.map_cons, List.flatten_cons, List.singleton_append] at ih ⊢
    rw [ih]

theorem bytewise_ne_nil (bytes : List Nat) : ∀ c ∈ bytewise bytes, c.1 ≠ [] := by
  intro c hc
  simp only [bytewise, List.mem_map] at hc
  obtain ⟨b, -, rfl⟩ := hc
  simp

/-! ## Messages that are already buffered -/

/-- A call on a buffer that needs no refill and holds the frame of `m` right
after the message delivered before: the call returns `m` without a receive. -/
theorem get_next_buffer_buffered (m : msg) (hm : msg_ok m) (script : List recvmsg_ret)
    (buf : buffer) (a : Nat) (hup : buf.update = false)
    (hsz : buf.buffer_size = buf.offset + buf.size + a) (ha : (frame m).length ≤ a)
    (hl : ∀ i, i < (frame m).length →
      peek 0 buf.buffer_data (buf.offset + buf.size + i) = peek 0 (frame m) i) :
    get_next_buffer script buf =
      some (.message m.opcode m.dest_id (buf.offset + buf.size + 8) m.payload.length,
        { buf with size := m.payload.length, data := buf.offset + buf.size + 8,
                   offset := buf.offset + buf.size + 8 }, script) := by
  have hfl := length_frame m
  have hparse := get_next_parse_frame m hm { buf with offset := buf.offset + buf.size } a
    hsz (by omega) (fun i _ hi => hl i hi)
  rw [if_neg (by omega), if_neg (by omega)] at hparse
  unfold get_next_buffer
  simp only []
  rw [if_neg (by rw [hup]; exact Bool.false_ne_true), hparse]

theorem pw_connection_get_next_eq (script : List recvmsg_ret) (impl : pw_connection_impl)
    (r : get_next_ret) (buf1 : buffer) (rest : List recvmsg_ret)
    (h : get_next_buffer script impl.in_ = some (r, buf1, rest)) :
    pw_connection_get_next script impl = some (r, { impl with in_ := buf1 }, rest) := by
  unfold pw_connection_get_next
  rw [h]
  rfl

/-- Reading the messages whose frames are buffered back to back needs no
receive and returns them in order. -/
theorem read_msgs_buffered (script : List recvmsg_ret) :
    ∀ (ms : List msg) (impl : pw_connection_impl),
      (∀ m ∈ ms, msg_ok m) →
      impl.in_.update = false →
      impl.in_.buffer_size = impl.in_.offset + impl.in_.size + ((ms.map frame).flatten).length →
      (∀ i, i < ((ms.map frame).flatten).length →
        peek 0 impl.in_.buffer_data (impl.in_.offset + impl.in_.size + i)
          = peek 0 ((ms.map frame).flatten) i) →
      ∃ impl1,
        read_msgs ms.length script impl = some (ms.map some, impl1, script) ∧
        impl1.in_.update = false ∧
        impl1.in_.offset + impl1.in_.size = impl.in_.buffer_size ∧
        impl1.in_.buffer_size = impl.in_.buffer_size ∧
        impl1.in_.buffer_maxsize = impl.in_.buffer_maxsize ∧
        impl1.out = impl.out := by
  intro ms
  induction ms with
  | nil =>
    intro impl _ hup hsz _
    exact ⟨impl, rfl, hup, by simpa using hsz.symm, rfl, rfl, rfl⟩
  | cons m ms ih =>
    intro impl hms hup hsz hl
    have hm : msg_ok m := hms m (List.mem_cons_self _ _)
    have hfl := length_frame m
    simp only [List.map_cons, List.flatten_cons, List.length_append] at hsz hl
    have hget := get_next_buffer_buffered m hm script impl.in_ _ hup hsz (by omega)
      (fun i hi => by
        rw [hl i (by omega)]
        unfold peek
        rw [List.getD_append _ _ _ _ hi])
    have hget2 := pw_connection_get_next_eq _ _ _ _ _ hget
    obtain ⟨impl1, hrest, h1, h2, h3, h4, h5⟩ := ih
      { impl with in_ :=
          { impl.in_ with
            size := m.payload.length
            data := impl.in_.offset + impl.in_.size + 8
            offset := impl.in_.offset + impl.in_.size + 8 } }
      (fun x hx => hms x (List.mem_cons_of_mem _ hx)) hup
      (by simp only [hsz]; omega)
      (fun i hi => by
        simp only
        rw [show impl.in_.offset + impl.in_.size + 8 + m.payload.length + i
          = impl.in_.offset + impl.in_.size + ((frame m).length + i) by omega,
          hl _ (by omega)]
        unfold peek
        rw [List.getD_append_right _ _ _ _ (by omega)]
        congr 1
        omega)
    refine ⟨impl1, ?_, h1, h2, h3, h4, h5⟩
    simp only [List.length_cons, read_msgs, hget2, hrest, List.map_cons, delivered]
    have hpay : load 0 impl.in_.buffer_data (impl.in_.offset + impl.in_.size + 8)
        m.payload.length = m.payload := by
      rw [load_eq_iff]
      refine ⟨rfl, fun i hi => ?_⟩
      rw [Nat.add_assoc, hl (8 + i) (by omega)]
      unfold peek
      rw [List.getD_append _ _ _ _ (by omega)]
      exact peek_frame_payload m i
    rw [hpay]


/-- A call on a buffer that needs no refill and whose bytes are all consumed:
the buffer is cleared and the call returns `false` without a receive. -/
theorem get_next_buffer_exhausted (script : List recvmsg_ret) (buf : buffer)
    (hup : buf.update = false) (h : buf.buffer_size ≤ buf.offset + buf.size) :
    get_next_buffer script buf =
      some (.no_more,
        { clear_buffer { buf with offset := buf.offset + buf.size } with update := true },
        script) := by
  unfold get_next_buffer get_next_parse
  simp only []
  rw [if_neg (by rw [hup]; exact Bool.false_ne_true), if_pos (by exact h)]

/-- The first call on an empty inbound buffer when one receive brings the
frame of `m` followed by further bytes. -/
theorem get_next_buffer_first (m : msg) (hm : msg_ok m) (tail : List Nat)
    (control : List cmsghdr) (rest : List recvmsg_ret) (buf : buffer) (h : inbound_empty buf)
    (hfit : (frame m ++ tail).length ≤ recv_iov_len buf) :
    get_next_buffer (.ok (frame m ++ tail) control :: rest) buf =
      some (.message m.opcode m.dest_id 8 m.payload.length,
        { refill_buffer_ok buf (frame m ++ tail) control with
          update := false
          size := m.payload.length
          data := 8
          offset := 8 }, rest) := by
  rw [get_next_buffer_empty _ _ h]
  obtain ⟨h1, h2, _, _⟩ := h
  obtain ⟨hdata, hsize, -, hoff, -, -, -⟩ := refill_buffer_ok_frame buf (frame m ++ tail) control
  rw [List.take_of_length_le hfit] at hdata hsize
  have hfl := length_frame m
  have hparse := get_next_parse_frame m hm
    { refill_buffer_ok buf (frame m ++ tail) control with update := false }
    (frame m ++ tail).length
    (by simp only [hsize, hoff, h1, h2])
    (by simp only [List.length_append]; omega)
    (by
      intro i hi hif
      simp only [hdata, hoff, h1, h2, Nat.zero_add]
      rw [peek_store, if_neg (Nat.not_lt_zero _), if_pos (by omega), Nat.sub_zero]
      unfold peek
      rw [List.getD_append _ _ _ _ hif])
  simp only [List.length_append] at hparse
  rw [if_neg (by omega), if_neg (by omega)] at hparse
  simp only [get_next_again]
  rw [hparse]
  simp only [hoff, h2]


/-! ## Received descriptors -/

theorem held_refill_control (control : List cmsghdr) :
    ∀ buf : buffer,
      held (refill_control buf control) = (control_rights control).getD (held buf) := by
  induction control with
  | nil =>
    intro buf
    rfl
  | cons c rest ih =>
    intro buf
    cases c with
    | other =>
      simp only [refill_control, control_rights]
      rw [ih buf]
      cases control_rights rest <;> rfl
    | scm_rights fds =>
      simp only [refill_control, control_rights]
      rw [ih]
      cases control_rights rest with
      | some f => rfl
      | none =>
        simp only [Option.getD_none, held]
        exact load_store_same 0 buf.fds 0 (fds.take MAX_FDS)

theorem held_refill_buffer_ok (buf : buffer) (bytes : List Nat) (control : List cmsghdr) :
    held (refill_buffer_ok buf bytes control) = (control_rights control).getD (held buf) := by
  unfold refill_buffer_ok
  rw [held_refill_control]
  rfl

/-- One pass of the parser that returns a message leaves the descriptors alone. -/
theorem held_get_next_parse_ret (buf : buffer) (o d dt sz : Nat) (b : buffer)
    (h : get_next_parse buf = .ret (.message o d dt sz) b) : held b = held buf := by
  unfold get_next_parse at h
  simp only [] at h
  split at h
  · cases h
  · split at h
    · cases h
    · split at h
      · cases h
      · cases h
        rfl

/-- One pass of the parser that jumps back to `again` leaves the descriptors alone. -/
theorem held_get_next_parse_again (buf : buffer) (b : buffer)
    (h : get_next_parse buf = .again b) : held b = held buf := by
  unfold get_next_parse at h
  simp only [] at h
  split at h
  · cases h
  · split at h
    · cases h
      simp only [held, (ensure_size_fds _ _).1, (ensure_size_fds _ _).2]
    · split at h
      · cases h
        simp only [held, (ensure_size_fds _ _).1, (ensure_size_fds _ _).2]
      · cases h

theorem held_get_next_again (script : List recvmsg_ret) :
    ∀ (buf : buffer) (o d dt sz : Nat) (buf1 : buffer),
      get_next_again script buf = some (.message o d dt sz, buf1, []) →
      held buf1 = (last_rights script).getD (held buf) := by
  induction script with
  | nil =>
    intro buf o d dt sz buf1 h
    cases h
  | cons r rest ih =>
    intro buf o d dt sz buf1 h
    cases r with
    | eintr =>
      simp only [get_next_again] at h
      rw [ih buf o d dt sz buf1 h]
      simp only [last_rights]
      cases last_rights rest <;> rfl
    | error =>
      simp only [get_next_again] at h
      cases h
    | ok bytes control =>
      simp only [get_next_again] at h
      have hr : held { refill_buffer_ok buf bytes control with update := false }
          = (control_rights control).getD (held buf) := held_refill_buffer_ok buf bytes control
      cases hparse : get_next_parse
          { refill_buffer_ok buf bytes control with update := false } with
      | ret r b =>
        rw [hparse] at h
        simp only [Option.some.injEq, Prod.mk.injEq] at h
        obtain ⟨h1, h2, h3⟩ := h
        subst h1 h2 h3
        rw [held_get_next_parse_ret _ o d dt sz b hparse, hr]
        rfl
      | again b =>
        rw [hparse] at h
        simp only at h
        rw [ih b o d dt sz buf1 h, held_get_next_parse_again _ b hparse, hr]
        simp only [last_rights]
        cases last_rights rest <;> rfl

theorem get_fd_eq_held (impl : pw_connection_impl) (index : Nat) :
    pw_connection_get_fd impl index =
      if index < (held impl.in_).length then peek 0 (held impl.in_) index else -1 := by
  unfold pw_connection_get_fd held
  rw [length_load]
  by_cases h : index < impl.in_.n_fds
  · rw [if_neg (by omega), if_pos h, peek_load _ _ _ _ _ h, Nat.zero_add]
  · rw [if_pos (by omega), if_neg h]


/-! ## Writing messages -/

/-- The header word that `pw_connection_end_write` stores is the one of the frame. -/
theorem end_write_word (m : msg) (hm : msg_ok m) :
    ((m.opcode <<< 24) ||| (m.payload.length &&& 0xffffff)) % 4294967296
      = (m.opcode <<< 24) ||| m.payload.length := by
  obtain ⟨_, ho, hn⟩ := hm
  rw [and_ffffff, Nat.mod_eq_of_lt hn, header_word _ _ hn]
  omega

/-- The effect of one `write_msg` on the outbound buffer. -/
theorem write_msg_out (impl : pw_connection_impl) (m : msg) (hm : msg_ok m) :
    (write_msg impl m).out.buffer_size = impl.out.buffer_size + (8 + m.payload.length) ∧
    (write_msg impl m).out.buffer_data =
      store32 (store32 (store 0 impl.out.buffer_data (impl.out.buffer_size + 8) m.payload)
        impl.out.buffer_size m.dest_id) (impl.out.buffer_size + 4)
        ((m.opcode <<< 24) ||| m.payload.length) ∧
    (write_msg impl m).in_ = impl.in_ ∧
    (write_msg impl m).out.fds = impl.out.fds ∧
    (write_msg impl m).out.n_fds = impl.out.n_fds := by
  have hlen : (8 + m.payload.length) % 4294967296 = 8 + m.payload.length :=
    Nat.mod_eq_of_lt (by have := hm.2.2; omega)
  have hd : m.dest_id % 4294967296 = m.dest_id := Nat.mod_eq_of_lt hm.1
  unfold write_msg pw_connection_end_write pw_connection_begin_write
  simp only [ensure_size_fst, ensure_size_data, ensure_size_size, hlen, hd, end_write_word m hm,
    (ensure_size_fds _ _).1, (ensure_size_fds _ _).2]
  exact ⟨trivial, trivial, trivial, trivial, trivial⟩

/-- One `write_msg` appends the frame and keeps the bytes buffered before. -/
theorem write_msg_buffered (impl : pw_connection_impl) (m : msg) (hm : msg_ok m) :
    load 0 (write_msg impl m).out.buffer_data impl.out.buffer_size (8 + m.payload.length)
      = frame m ∧
    ∀ q n, q + n ≤ impl.out.buffer_size →
      load 0 (write_msg impl m).out.buffer_data q n = load 0 impl.out.buffer_data q n := by
  obtain ⟨-, hdata, -, -, -⟩ := write_msg_out impl m hm
  rw [hdata]
  unfold store32
  constructor
  · rw [show 8 + m.payload.length = 4 + (4 + m.payload.length) by omega, load_add, load_add]
    have ha : load 0 (store 0 (store 0 (store 0 impl.out.buffer_data (impl.out.buffer_size + 8)
        m.payload) impl.out.buffer_size (encode32 m.dest_id)) (impl.out.buffer_size + 4)
        (encode32 ((m.opcode <<< 24) ||| m.payload.length))) impl.out.buffer_size 4
        = encode32 m.dest_id := by
      rw [load_store_before _ _ _ _ _ _ (by omega)]
      exact load_store_same _ _ _ _
    have hb : load 0 (store 0 (store 0 (store 0 impl.out.buffer_data (impl.out.buffer_size + 8)
        m.payload) impl.out.buffer_size (encode32 m.dest_id)) (impl.out.buffer_size + 4)
        (encode32 ((m.opcode <<< 24) ||| m.payload.length))) (impl.out.buffer_size + 4) 4
        = encode32 ((m.opcode <<< 24) ||| m.payload.length) :=
      load_store_same _ _ _ _
    have hc : load 0 (store 0 (store 0 (store 0 impl.out.buffer_data (impl.out.buffer_size + 8)
        m.payload) impl.out.buffer_size (encode32 m.dest_id)) (impl.out.buffer_size + 4)
        (encode32 ((m.opcode <<< 24) ||| m.payload.length))) (impl.out.buffer_size + 4 + 4)
        m.payload.length = m.payload := by
      rw [load_store_after _ _ _ _ _ _ (by rw [length_encode32]),
        load_store_after _ _ _ _ _ _ (by rw [length_encode32]; omega),
        show impl.out.buffer_size + 4 + 4 = impl.out.buffer_size + 8 by omega]
      exact load_store_same _ _ _ _
    rw [ha, hb, hc]
    simp [frame]
  · intro q n hq
    rw [load_store_before _ _ _ _ _ _ (by omega), load_store_before _ _ _ _ _ _ (by omega),
      load_store_before _ _ _ _ _ _ (by omega)]


/-- Writing a list of messages appends their frames in order and keeps every
byte that was buffered before. -/
theorem write_msgs_buffered : ∀ (ms : List msg) (impl : pw_connection_impl),
    (∀ m ∈ ms, msg_ok m) →
    (write_msgs impl ms).out.buffer_size =
      impl.out.buffer_size + (ms.map (fun m => 8 + m.payload.length)).sum ∧
    buffered (write_msgs impl ms).out = buffered impl.out ++ (ms.map frame).flatten ∧
    (∀ q n, q + n ≤ impl.out.buffer_size →
      load 0 (write_msgs impl ms).out.buffer_data q n = load 0 impl.out.buffer_data q n) := by
  intro ms
  induction ms with
  | nil =>
    intro impl _
    simp [write_msgs]
  | cons m ms ih =>
    intro impl hms
    have hm : msg_ok m := hms m (List.mem_cons_self _ _)
    obtain ⟨hsz, -, -, -, -⟩ := write_msg_out impl m hm
    obtain ⟨hfr, hkeep⟩ := write_msg_buffered impl m hm
    obtain ⟨h1, h2, h3⟩ := ih (write_msg impl m) (fun x hx => hms x (List.mem_cons_of_mem _ hx))
    have hfold : write_msgs impl (m :: ms) = write_msgs (write_msg impl m) ms := rfl
    rw [hfold]
    refine ⟨?_, ?_, ?_⟩
    · rw [h1, hsz]
      simp only [List.map_cons, List.sum_cons]
      omega
    · rw [h2]
      unfold buffered
      rw [hsz, load_add, hkeep 0 _ (by omega), Nat.zero_add, hfr]
      simp
    · intro q n hq
      rw [h3 q n (by omega), hkeep q n hq]


/-- A flush whose `sendmsg` accepts everything that is buffered. -/
theorem flush_all (impl : pw_connection_impl) (k : Nat) (rest : List sendmsg_ret)
    (hpos : impl.out.buffer_size ≠ 0) (hk : impl.out.buffer_size ≤ k) :
    pw_connection_flush (.ok k :: rest) impl =
      some (true, { impl with out := { impl.out with buffer_size := 0, n_fds := 0 } },
        some { bytes := buffered impl.out, fds := flush_fds impl.out }, rest) := by
  unfold pw_connection_flush
  rw [if_neg hpos]
  simp only [flush_send, Nat.min_eq_right hk, Nat.sub_self, buffered]


/-- A flush whose `sendmsg` accepts only `k` of the buffered bytes: the bytes
`buffer_data[0 .. k)` go on the wire, `buffer_size` drops by `k` and
`buffer_data` is not moved, so the buffer then holds `buffer_data[0 .. n - k)`. -/
theorem flush_short (impl : pw_connection_impl) (k : Nat) (rest : List sendmsg_ret)
    (hk : k < impl.out.buffer_size) :
    pw_connection_flush (.ok k :: rest) impl =
      some (true,
        { impl with out := { impl.out with
            buffer_size := impl.out.buffer_size - k, n_fds := 0 } },
        some { bytes := load 0 impl.out.buffer_data 0 k, fds := flush_fds impl.out }, rest) := by
  unfold pw_connection_flush
  rw [if_neg (by omega)]
  simp only [flush_send, Nat.min_eq_left (Nat.le_of_lt hk)]

/-- While fewer than 8 bytes are buffered past the cursor, receives of zero
bytes never let the loop at `again` return. -/
theorem get_next_again_zero (n : Nat) :
    ∀ buf : buffer, buf.offset < buf.buffer_size → buf.buffer_size - buf.offset < 8 →
      get_next_again (List.replicate n (.ok [] [])) buf = none := by
  induction n with
  | zero =>
    intro buf _ _
    rfl
  | succ n ih =>
    intro buf h1 h2
    obtain ⟨-, hsize, -, hoff, -, -, -⟩ := refill_buffer_ok_frame buf [] []
    simp only [List.take_nil, List.length_nil, Nat.add_zero] at hsize
    simp only [List.replicate_succ, get_next_again, get_next_parse, hsize, hoff]
    rw [if_neg (by omega), if_pos (by omega)]
    apply ih
    · simp only [ensure_size_size, ensure_size_offset, hsize, hoff]
      exact h1
    · simp only [ensure_size_size, ensure_size_offset, hsize, hoff]
      exact h2


/-! ## The send loop -/

/-- Interrupted sends are retried: they only consume their outcomes. -/
theorem flush_send_eintr (j : Nat) (script : List sendmsg_ret) (impl : pw_connection_impl) :
    flush_send (List.replicate j .eintr ++ script) impl = flush_send script impl := by
  induction j with
  | zero => rfl
  | succ j ih =>
    rw [List.replicate_succ, List.cons_append]
    simp only [flush_send]
    exact ih

/-- The send loop reports a failure only for an error other than `EINTR`, after
interrupted sends only, and then leaves the connection as it was. -/
theorem flush_send_false (script : List sendmsg_ret) (impl impl1 : pw_connection_impl)
    (w : Option sent) (rest : List sendmsg_ret)
    (h : flush_send script impl = some (false, impl1, w, rest)) :
    impl1 = impl ∧ w = none ∧ ∃ j, script = List.replicate j .eintr ++ .error :: rest := by
  induction script with
  | nil => cases h
  | cons r rs ih =>
    cases r with
    | ok k =>
      simp only [flush_send, Option.some.injEq, Prod.mk.injEq] at h
      exact absurd h.1 (by decide)
    | eintr =>
      simp only [flush_send] at h
      obtain ⟨h1, h2, j, hj⟩ := ih h
      exact ⟨h1, h2, j + 1, by rw [hj, List.replicate_succ, List.cons_append]⟩
    | error =>
      simp only [flush_send, Option.some.injEq, Prod.mk.injEq] at h
      obtain ⟨-, h1, h2, h3⟩ := h
      exact ⟨h1.symm, h2.symm, 0, by rw [h3]; rfl⟩

/-! ## How a call of the read path returns -/

/-- Every return of the loop at `again` is either the failed receive, with the
buffer as the loop had it, or a return of the parser; a property of the buffer
that refills and jumps back to `again` keep holds where the loop returns. -/
theorem get_next_again_ret (P : buffer → Prop)
    (hrefill : ∀ buf bytes control, P buf →
      P { refill_buffer_ok buf bytes control with update := false })
    (hagain : ∀ buf b, P buf → get_next_parse buf = .again b → P b)
    (script : List recvmsg_ret) :
    ∀ (buf : buffer) (r : get_next_ret) (b : buffer) (rest : List recvmsg_ret),
      P buf → get_next_again script buf = some (r, b, rest) →
      (r = .recv_error ∧ P b) ∨ (∃ mid, P mid ∧ get_next_parse mid = .ret r b) := by
  induction script with
  | nil =>
    intro buf r b rest _ h
    cases h
  | cons x xs ih =>
    intro buf r b rest hP h
    cases x with
    | eintr =>
      simp only [get_next_again] at h
      exact ih buf r b rest hP h
    | error =>
      simp only [get_next_again, Option.some.injEq, Prod.mk.injEq] at h
      obtain ⟨h1, h2, -⟩ := h
      subst h1 h2
      exact Or.inl ⟨rfl, hP⟩
    | ok bytes control =>
      simp only [get_next_again] at h
      have hmid := hrefill buf bytes control hP
      cases hparse : get_next_parse
          { refill_buffer_ok buf bytes control with update := false } with
      | ret r1 b1 =>
        rw [hparse] at h
        simp only [Option.some.injEq, Prod.mk.injEq] at h
        obtain ⟨h1, h2, -⟩ := h
        subst h1 h2
        exact Or.inr ⟨_, hmid, hparse⟩
      | again b1 =>
        rw [hparse] at h
        simp only at h
        exact ih b1 r b rest (hagain _ b1 hmid hparse) h

/-- The same for a whole call of `pw_connection_get_next` on the inbound buffer. -/
theorem get_next_buffer_ret (P : buffer → Prop)
    (hoff : ∀ buf, P buf → P { buf with offset := buf.offset + buf.size })
    (hrefill : ∀ buf bytes control, P buf →
      P { refill_buffer_ok buf bytes control with update := false })
    (hagain : ∀ buf b, P buf → get_next_parse buf = .again b → P b)
    (script : List recvmsg_ret) (buf : buffer) (r : get_next_ret) (b : buffer)
    (rest : List recvmsg_ret) (hP : P buf)
    (h : get_next_buffer script buf = some (r, b, rest)) :
    (r = .recv_error ∧ P b) ∨ (∃ mid, P mid ∧ get_next_parse mid = .ret r b) := by
  unfold get_next_buffer at h
  simp only [] at h
  have hP1 := hoff buf hP
  split at h
  · exact get_next_again_ret P hrefill hagain script _ r b rest hP1 h
  · cases hparse : get_next_parse { buf with offset := buf.offset + buf.size } with
    | ret r1 b1 =>
      rw [hparse] at h
      simp only [Option.some.injEq, Prod.mk.injEq] at h
      obtain ⟨h1, h2, -⟩ := h
      subst h1 h2
      exact Or.inr ⟨_, hP1, hparse⟩
    | again b1 =>
      rw [hparse] at h
      simp only at h
      exact get_next_again_ret P hrefill hagain script b1 r b rest
        (hagain _ b1 hP1 hparse) h

/-- What the parser has checked when it returns a message. -/
theorem get_next_parse_message (buf : buffer) (o d dt sz : Nat) (b : buffer)
    (h : get_next_parse buf = .ret (.message o d dt sz) b) :
    b = { buf with size := sz, data := dt, offset := dt } ∧
    dt = buf.offset + 8 ∧ dt + sz ≤ buf.buffer_size ∧
    d = load32 buf.buffer_data (dt - 8) ∧
    o = (load32 buf.buffer_data (dt - 4) >>> 24) % 256 ∧
    sz = load32 buf.buffer_data (dt - 4) &&& 0xffffff := by
  unfold get_next_parse at h
  simp only [] at h
  split at h
  · cases h
  · split at h
    · cases h
    · split at h
      · cases h
      · rename_i h1 h2 h3
        simp only [parse_step.ret.injEq, get_next_ret.message.injEq] at h
        obtain ⟨⟨ho, hd, hdt, hsz⟩, hb⟩ := h
        have hlt : load32 buf.buffer_data (buf.offset + 4) &&& 0xffffff < 4294967296 := by
          rw [and_ffffff]
          omega
        rw [Nat.mod_eq_of_lt hlt] at hsz
        subst hdt
        rw [show buf.offset + 8 - 8 = buf.offset by omega,
          show buf.offset + 8 - 4 = buf.offset + 4 by omega]
        refine ⟨?_, rfl, ?_, hd.symm, ho.symm, hsz.symm⟩
        · rw [← hb, ← hsz]
        · rw [← hsz]
          omega

/-- The parser keeps the capacity and descriptor-count invariant however it ends. -/
theorem get_next_parse_inv (buf : buffer) (h : buffer_inv buf) :
    (∀ r b, get_next_parse buf = .ret r b → buffer_inv b) ∧
    (∀ b, get_next_parse buf = .again b → buffer_inv b) := by
  have hens : ∀ a, buffer_inv { (connection_ensure_size buf a).2 with update := true } := by
    intro a
    have := (connection_ensure_size_frame buf a).2.2.2
    exact ⟨by simp only [ensure_size_size]; exact Nat.le_trans h.1 this,
      by simp only [(ensure_size_fds buf a).2]; exact h.2⟩
  constructor
  · intro r b hp
    unfold get_next_parse at hp
    simp only [] at hp
    split at hp
    · cases hp
      exact ⟨Nat.zero_le _, Nat.zero_le _⟩
    · split at hp
      · cases hp
      · split at hp
        · cases hp
        · cases hp
          exact h
  · intro b hp
    unfold get_next_parse at hp
    simp only [] at hp
    split at hp
    · cases hp
    · split at hp
      · cases hp
        exact hens 8
      · split at hp
        · cases hp
          exact hens _
        · cases hp

theorem refill_control_n_fds (control : List cmsghdr) :
    ∀ buf : buffer, buf.n_fds ≤ MAX_FDS → (refill_control buf control).n_fds ≤ MAX_FDS := by
  induction control with
  | nil =>
    intro buf h
    exact h
  | cons c rest ih =>
    intro buf h
    cases c with
    | other => exact ih buf h
    | scm_rights fds =>
      simp only [refill_control]
      apply ih
      simp only [List.length_take]
      exact Nat.min_le_left _ _

/-- A successful receive keeps the capacity and descriptor-count invariant. -/
theorem refill_buffer_ok_inv (buf : buffer) (bytes : List Nat) (control : List cmsghdr)
    (h : buffer_inv buf) :
    buffer_inv { refill_buffer_ok buf bytes control with update := false } := by
  obtain ⟨-, hsize, hmax, -, -, -, -⟩ := refill_buffer_ok_frame buf bytes control
  refine ⟨?_, ?_⟩
  · simp only [hsize, hmax, List.length_take, recv_iov_len]
    have := h.1
    omega
  · unfold refill_buffer_ok
    exact refill_control_n_fds control _ h.2

/-- Every return of `pw_connection_get_next` keeps the invariant of the inbound
buffer. -/
theorem get_next_buffer_inv (script : List recvmsg_ret) (buf : buffer) (r : get_next_ret)
    (b : buffer) (rest : List recvmsg_ret) (hinv : buffer_inv buf)
    (h : get_next_buffer script buf = some (r, b, rest)) : buffer_inv b := by
  rcases get_next_buffer_ret buffer_inv (fun _ hb => hb)
    (fun buf bytes control hb => refill_buffer_ok_inv buf bytes control hb)
    (fun buf b hb hp => (get_next_parse_inv buf hb).2 b hp)
    script buf r b rest hinv h with ⟨-, hb⟩ | ⟨mid, hmid, hp⟩
  · exact hb
  · exact (get_next_parse_inv mid hmid).1 r b hp

theorem pw_connection_get_next_some (script : List recvmsg_ret) (impl : pw_connection_impl)
    (r : get_next_ret) (impl1 : pw_connection_impl) (rest : List recvmsg_ret)
    (h : pw_connection_get_next script impl = some (r, impl1, rest)) :
    ∃ b, get_next_buffer script impl.in_ = some (r, b, rest) ∧
      impl1 = { impl with in_ := b } := by
  unfold pw_connection_get_next at h
  cases hb : get_next_buffer script impl.in_ with
  | none =>
    rw [hb] at h
    cases h
  | some res =>
    obtain ⟨r1, b, rest1⟩ := res
    rw [hb] at h
    simp only [Option.map_some', Option.some.injEq, Prod.mk.injEq] at h
    obtain ⟨h1, h2, h3⟩ := h
    subst h1 h3
    exact ⟨b, rfl, h2.symm⟩

/-- Every return of the send loop keeps the invariant of the connection. -/
theorem flush_send_inv (script : List sendmsg_ret) (impl : pw_connection_impl)
    (hinv : connection_inv impl) :
    ∀ (r : Bool) (impl1 : pw_connection_impl) (w : Option sent) (rest : List sendmsg_ret),
      flush_send script impl = some (r, impl1, w, rest) → connection_inv impl1 := by
  induction script with
  | nil =>
    intro r impl1 w rest h
    cases h
  | cons x xs ih =>
    intro r impl1 w rest h
    cases x with
    | eintr =>
      simp only [flush_send] at h
      exact ih r impl1 w rest h
    | error =>
      simp only [flush_send, Option.some.injEq, Prod.mk.injEq] at h
      obtain ⟨-, h1, -, -⟩ := h
      subst h1
      exact hinv
    | ok k =>
      simp only [flush_send, Option.some.injEq, Prod.mk.injEq] at h
      obtain ⟨-, h1, -, -⟩ := h
      subst h1
      refine ⟨hinv.1, ?_, Nat.zero_le _⟩
      show impl.out.buffer_size - min k impl.out.buffer_size ≤ impl.out.buffer_maxsize
      have := hinv.2.1
      omega

/-! ## One more receive after a grow step -/

theorem drop_frame (m : msg) : (frame m).drop 8 = m.payload := by
  unfold frame
  rw [List.drop_append_of_le_length (by simp [length_encode32])]
  simp [length_encode32]

/-- A single receive fits when its bytes are no more than the room offered. -/
theorem recv_within_iov_single (bytes : List Nat) (control : List cmsghdr) (buf : buffer)
    (h : bytes.length ≤ recv_iov_len buf) :
    recv_within_iov [.ok bytes control] buf = true := by
  simp only [recv_within_iov, Bool.and_eq_true, decide_eq_true_eq]
  refine ⟨h, ?_⟩
  cases get_next_parse { refill_buffer_ok buf bytes control with update := false } <;> rfl

/-- The grow step taken for a payload that is exactly as long as the room left
does not change the buffer; the next receive can bring the whole payload. -/
theorem get_next_parse_exact_room (m : msg) (hm : msg_ok m) (buf : buffer)
    (hsz : buf.buffer_size = buf.offset + 8)
    (hl : ∀ i, i < 8 → peek 0 buf.buffer_data (buf.offset + i) = peek 0 (frame m) i)
    (hpos : 0 < m.payload.length) (hroom : m.payload.length = recv_iov_len buf) :
    get_next_parse buf = .again { buf with update := true } := by
  have hparse := get_next_parse_frame m hm buf 8 hsz (by omega) (fun i hi _ => hl i hi)
  rw [if_neg (by omega), if_pos (by omega)] at hparse
  rw [hparse]
  have : (connection_ensure_size buf m.payload.length).2 = buf := by
    unfold connection_ensure_size
    unfold recv_iov_len at hroom
    rw [if_neg (by omega)]
  rw [this]

/-- After that grow step, without a receive the loop has not returned, and one
receive that brings the payload makes it return the message with the capacity
it had. -/
theorem get_next_again_exact_room (m : msg) (hm : msg_ok m) (control : List cmsghdr)
    (buf : buffer) (hsz : buf.buffer_size = buf.offset + 8)
    (hl : ∀ i, i < 8 → peek 0 buf.buffer_data (buf.offset + i) = peek 0 (frame m) i)
    (hpos : 0 < m.payload.length) (hroom : m.payload.length = recv_iov_len buf) :
    get_next_again [] { buf with update := true } = none ∧
    ∃ b1,
      get_next_again [.ok m.payload control] { buf with update := true } =
        some (.message m.opcode m.dest_id (buf.offset + 8) m.payload.length, b1, []) ∧
      load 0 b1.buffer_data (buf.offset + 8) m.payload.length = m.payload ∧
      b1.buffer_maxsize = buf.buffer_maxsize := by
  refine ⟨rfl, ?_⟩
  have hfit : recv_within_iov (recv_chunks [(m.payload, control)])
      { buf with update := true } = true :=
    recv_within_iov_single m.payload control _ (by rw [hroom]; exact Nat.le_refl _)
  obtain ⟨b1, hget, hload, -, -, -, -⟩ := get_next_again_chunks m hm
    [(m.payload, control)] { buf with update := true } 8 hsz
    (by rw [length_frame]; omega) hl
    (by simp [drop_frame]) (by
      intro c hc
      simp only [List.mem_singleton] at hc
      subst hc
      exact List.ne_nil_of_length_pos hpos) hfit
  refine ⟨b1, hget, hload, ?_⟩
  simp only [recv_chunks, List.map_cons, List.map_nil, get_next_again] at hget
  cases hp : get_next_parse
      { refill_buffer_ok { buf with update := true } m.payload control with
        update := false } with
  | again b2 =>
    rw [hp] at hget
    cases hget
  | ret r b2 =>
    rw [hp] at hget
    simp only [Option.some.injEq, Prod.mk.injEq] at hget
    obtain ⟨h1, h2, -⟩ := hget
    subst h1 h2
    obtain ⟨hb, -⟩ := get_next_parse_message _ _ _ _ _ _ hp
    rw [hb]
    exact (refill_buffer_ok_frame { buf with update := true } m.payload control).2.2.1

/-! ## Resources of the shared memory block -/

theorem set_length_head (fd : Int) (size n : Nat) (rest : List (Int × Nat)) :
    set_length fd size ((fd, n) :: rest) = (fd, size) :: rest := by
  simp [set_length]

theorem eraseP_head (fd : Int) (n : Nat) (rest : List (Int × Nat)) :
    ((fd, n) :: rest).eraseP (fun e => e.1 == fd) = rest := by
  simp [List.eraseP_cons]

theorem eraseP_heap_head (ptr n : Nat) (rest : List (Nat × Nat)) :
    ((ptr, n) :: rest).eraseP (fun e => e.1 == ptr) = rest := by
  simp [List.eraseP_cons]

/-- The resources after the successful `mkostemp`, `unlink` and `ftruncate` of
`pinos_memblock_alloc`: one more open descriptor, of a file of the length asked
for, and nothing else. -/
theorem alloc_file_resources (p : process) (fd : Int) (size : Nat) (r : Int)
    (hfd : fd ≠ -1) (hr : ¬ r < 0) :
    sys_ftruncate (sys_unlink (sys_mkostemp p fd)) fd size r =
      { p with open_files := (fd, size) :: p.open_files } := by
  unfold sys_ftruncate sys_unlink sys_mkostemp
  rw [if_neg hr, if_neg hfd]
  simp only [set_length_head, Nat.add_sub_cancel]

/-- The resources after a failed `ftruncate` and the `close` that follows it. -/
theorem alloc_truncate_failed (p : process) (fd : Int) (size : Nat) (r : Int)
    (hfd : fd ≠ -1) (hr : r < 0) :
    sys_close (sys_ftruncate (sys_unlink (sys_mkostemp p fd)) fd size r) fd = p := by
  unfold sys_close sys_ftruncate sys_unlink sys_mkostemp
  rw [if_pos hr, if_neg hfd]
  simp only [eraseP_head, Nat.add_sub_cancel]

/-- The heap branch of `pinos_memblock_alloc`. -/
theorem alloc_heap (flags : PinosMemblockFlags) (size : Nat) (m0 : PinosMemblock)
    (ans : sys_answers) (p : process) (hs : size ≠ 0) (hf : flags.WITH_FD = false) :
    pinos_memblock_alloc flags size (some m0) ans p =
      if ans.malloc = NULL then
        (.SPA_RESULT_NO_MEMORY,
          some { flags := flags, fd := m0.fd, ptr := ans.malloc, size := size },
          p, [.malloc size])
      else
        (.SPA_RESULT_OK,
          some { flags := flags, fd := -1, ptr := ans.malloc, size := size },
          { p with heap := (ans.malloc, size) :: p.heap }, [.malloc size]) := by
  unfold pinos_memblock_alloc sys_malloc
  simp only [if_neg hs, hf, Bool.false_eq_true, if_false]
  by_cases h : ans.malloc = NULL
  · simp only [h, if_true]
  · simp only [h, if_false]

/-- The descriptor branch of `pinos_memblock_alloc`. -/
theorem alloc_fd (flags : PinosMemblockFlags) (size : Nat) (m0 : PinosMemblock)
    (ans : sys_answers) (p : process) (hs : size ≠ 0) (hf : flags.WITH_FD = true) :
    pinos_memblock_alloc flags size (some m0) ans p =
      if ans.mkostemp = -1 then
        (.SPA_RESULT_ERRNO,
          some { flags := flags, fd := ans.mkostemp, ptr := m0.ptr, size := size },
          p, [.mkostemp])
      else if ans.ftruncate < 0 then
        (.SPA_RESULT_ERRNO,
          some { flags := flags, fd := ans.mkostemp, ptr := m0.ptr, size := size },
          p, [.mkostemp, .unlink, .ftruncate ans.mkostemp size, .close ans.mkostemp])
      else if flags.MAP_READWRITE = true then
        if ans.mmap = MAP_FAILED then
          (.SPA_RESULT_NO_MEMORY,
            some { flags := flags, fd := ans.mkostemp, ptr := ans.mmap, size := size },
            { p with open_files := (ans.mkostemp, size) :: p.open_files },
            [.mkostemp, .unlink, .ftruncate ans.mkostemp size,
             .mmap size flags.MAP_READ flags.MAP_WRITE ans.mkostemp])
        else
          (.SPA_RESULT_OK,
            some { flags := flags, fd := ans.mkostemp, ptr := ans.mmap, size := size },
            { p with open_files := (ans.mkostemp, size) :: p.open_files,
                     mappings := (ans.mmap, size) :: p.mappings },
            [.mkostemp, .unlink, .ftruncate ans.mkostemp size,
             .mmap size flags.MAP_READ flags.MAP_WRITE ans.mkostemp])
      else
        (.SPA_RESULT_OK,
          some { flags := flags, fd := ans.mkostemp, ptr := NULL, size := size },
          { p with open_files := (ans.mkostemp, size) :: p.open_files },
          [.mkostemp, .unlink, .ftruncate ans.mkostemp size]) := by
  unfold pinos_memblock_alloc
  simp only [if_neg hs, hf, if_true]
  by_cases h1 : ans.mkostemp = -1
  · simp only [h1, if_true, sys_mkostemp]
  · simp only [h1, if_false]
    by_cases h2 : ans.ftruncate < 0
    · simp only [h2, if_true, alloc_truncate_failed p ans.mkostemp size ans.ftruncate h1 h2]
    · simp only [h2, if_false, alloc_file_resources p ans.mkostemp size ans.ftruncate h1 h2]
      by_cases h3 : flags.MAP_READWRITE = true
      · simp only [h3, if_true, sys_mmap]
        by_cases h4 : ans.mmap = MAP_FAILED
        · simp only [h4, if_true]
        · simp only [h4, if_false]
      · simp only [h3, Bool.false_eq_true, if_false]

/-! ## Properties of the descriptor channel -/

/-- C9. Staging deduplicates: when `pw_connection_add_fd` succeeds with index `i`,
entry `i` of the outbound sequence is `fd` and lies inside the sequence, the
entries staged before are unchanged, staging `fd` again returns `i` and changes
nothing, the length grows by at most one, and a sequence without two equal
values stays so. -/
theorem add_fd_dedup (impl : pw_connection_impl) (fd : Int)
    (hok : (pw_connection_add_fd impl fd).1 ≠ UINT32_MINUS_ONE) :
    (pw_connection_add_fd impl fd).1 < (pw_connection_add_fd impl fd).2.out.n_fds ∧
    peek 0 (pw_connection_add_fd impl fd).2.out.fds (pw_connection_add_fd impl fd).1 = fd ∧
    (∀ j, j < impl.out.n_fds →
      peek 0 (pw_connection_add_fd impl fd).2.out.fds j = peek 0 impl.out.fds j) ∧
    pw_connection_add_fd (pw_connection_add_fd impl fd).2 fd = pw_connection_add_fd impl fd ∧
    impl.out.n_fds ≤ (pw_connection_add_fd impl fd).2.out.n_fds ∧
    (pw_connection_add_fd impl fd).2.out.n_fds ≤ impl.out.n_fds + 1 ∧
    ((staged impl).Nodup → (staged (pw_connection_add_fd impl fd).2).Nodup) := by
  rcases add_fd_cases impl fd with ⟨i, hi, hp, hfirst, heq⟩ | ⟨_, _, heq⟩ | ⟨habs, hroom, heq⟩
  · rw [heq]
    simp only
    rw [heq]
    exact ⟨hi, hp, fun _ _ => trivial, rfl, Nat.le_refl _, Nat.le_succ _, id⟩
  · rw [heq] at hok
    exact absurd rfl hok
  · rw [heq]
    simp only
    have hsame : ∀ j, j < impl.out.n_fds →
        peek 0 (store 0 impl.out.fds impl.out.n_fds [fd]) j = peek 0 impl.out.fds j := by
      intro j hj
      rw [peek_store]
      simp [hj]
    have hnew : peek 0 (store 0 impl.out.fds impl.out.n_fds [fd]) impl.out.n_fds = fd := by
      rw [peek_store]
      simp [peek]
    refine ⟨Nat.lt_succ_self _, hnew, hsame, ?_, Nat.le_succ _, Nat.le_refl _, ?_⟩
    · exact add_fd_found _ fd impl.out.n_fds (Nat.lt_succ_self _) hnew
        (fun j hj => by
          show peek 0 (store 0 impl.out.fds impl.out.n_fds [fd]) j ≠ fd
          rw [hsame j hj]
          exact habs j hj)
    · unfold staged
      simp only [nodup_load_iff, Nat.zero_add]
      intro hnd i j hij hj
      by_cases hjn : j < impl.out.n_fds
      · rw [hsame i (by omega), hsame j hjn]
        exact hnd i j hij hjn
      · have : j = impl.out.n_fds := by omega
        subst this
        rw [hsame i hij, hnew]
        exact habs i hij

/-- C9, at a concrete input: staging 7 after 5 and 7 have been staged. -/
theorem add_fd_dedup_witness :
    (pw_connection_add_fd (add_fds (pw_connection_new 3) [5, 7]).2 7).1 ≠ UINT32_MINUS_ONE ∧
    (pw_connection_add_fd (add_fds (pw_connection_new 3) [5, 7]).2 7).1 = 1 ∧
    pw_connection_add_fd (pw_connection_add_fd (add_fds (pw_connection_new 3) [5, 7]).2 7).2 7 =
      pw_connection_add_fd (add_fds (pw_connection_new 3) [5, 7]).2 7 :=
  ⟨by decide, by decide,
    (add_fd_dedup (add_fds (pw_connection_new 3) [5, 7]).2 7 (by decide)).2.2.2.1⟩

/-- C10. The descriptor cap: with at most 28 descriptors staged,
`pw_connection_add_fd` returns the value of `(uint32_t) -1` (which is at least
28) exactly when 28 descriptors are staged and `fd` is not among them, and then
the connection is unchanged.  After staging 28 pairwise distinct values on an
empty sequence (they get the indices 0 to 27 in order), a further distinct value
fails and each of the 28 is found again at its index. -/
theorem add_fd_cap (impl : pw_connection_impl) (fd : Int) (hn : impl.out.n_fds ≤ MAX_FDS) :
    MAX_FDS ≤ UINT32_MINUS_ONE ∧
    ((pw_connection_add_fd impl fd).1 = UINT32_MINUS_ONE ↔
      impl.out.n_fds = MAX_FDS ∧ fd ∉ staged impl) ∧
    ((pw_connection_add_fd impl fd).1 = UINT32_MINUS_ONE →
      (pw_connection_add_fd impl fd).2 = impl) ∧
    (∀ (impl0 : pw_connection_impl) (vals : List Int),
      impl0.out.n_fds = 0 → vals.length = MAX_FDS → vals.Nodup →
      (add_fds impl0 vals).1 = List.range MAX_FDS ∧
      staged (add_fds impl0 vals).2 = vals ∧
      (∀ v, v ∉ vals →
        pw_connection_add_fd (add_fds impl0 vals).2 v =
          (UINT32_MINUS_ONE, (add_fds impl0 vals).2)) ∧
      (∀ i, i < MAX_FDS →
        pw_connection_add_fd (add_fds impl0 vals).2 (peek 0 vals i) =
          (i, (add_fds impl0 vals).2))) := by
  have hmem : fd ∉ staged impl ↔ ∀ j, j < impl.out.n_fds → peek 0 impl.out.fds j ≠ fd := by
    unfold staged
    rw [mem_load_iff]
    simp
  refine ⟨by decide, ?_, ?_, ?_⟩
  · rcases add_fd_cases impl fd with ⟨i, hi, hp, hfirst, heq⟩ | ⟨habs, hfull, heq⟩ |
      ⟨habs, hroom, heq⟩
    · rw [heq, hmem]
      simp only
      constructor
      · intro h
        unfold UINT32_MINUS_ONE MAX_FDS at *
        omega
      · intro h
        exact absurd hp (h.2 i hi)
    · rw [heq, hmem]
      simp only [true_iff]
      exact ⟨by omega, habs⟩
    · rw [heq, hmem]
      simp only
      constructor
      · intro h
        unfold UINT32_MINUS_ONE MAX_FDS at *
        omega
      · intro h
        omega
  · rcases add_fd_cases impl fd with ⟨i, hi, hp, hfirst, heq⟩ | ⟨habs, hfull, heq⟩ |
      ⟨habs, hroom, heq⟩
    · rw [heq]
      exact fun _ => rfl
    · rw [heq]
      exact fun _ => rfl
    · rw [heq]
      intro h
      simp only at h
      unfold UINT32_MINUS_ONE MAX_FDS at *
      omega
  · intro impl0 vals h0 hlen hnd
    obtain ⟨h1, h2, -, h4⟩ := add_fds_distinct vals impl0
      (fun i _ j hj => by omega) hnd (by omega)
    rw [h0, Nat.zero_add] at h2
    simp only [h0, Nat.zero_add] at h4
    rw [h0, hlen] at h1
    have hst : staged (add_fds impl0 vals).2 = vals := by
      unfold staged
      rw [h2, load_eq_iff]
      exact ⟨rfl, fun i hi => by rw [Nat.zero_add]; exact h4 i hi⟩
    refine ⟨by rw [h1, List.range_eq_range'], hst, ?_, ?_⟩
    · intro v hv
      have habs : ∀ j, j < (add_fds impl0 vals).2.out.n_fds →
          peek 0 (add_fds impl0 vals).2.out.fds j ≠ v := by
        intro j hj heq
        apply hv
        rw [mem_iff_peek]
        exact ⟨j, by omega, by rw [← h4 j (by omega)]; exact heq⟩
      rw [add_fd_absent _ v habs]
      simp [h2, hlen]
    · intro i hi
      apply add_fd_found
      · omega
      · exact h4 i (by omega)
      · intro j hj
        rw [h4 j (by omega)]
        exact (nodup_iff_peek vals).1 hnd j i hj (by omega)

/-- C10, at a concrete input: 28 descriptors staged on a new connection, then a
29th. -/
theorem add_fd_cap_witness :
    (pw_connection_add_fd (add_fds (pw_connection_new 3) (List.range 28)).2 100).1
      = UINT32_MINUS_ONE :=
  ((add_fd_cap (add_fds (pw_connection_new 3) (List.range 28)).2 100 (by decide)).2.1).2
    ⟨by decide, by decide⟩

/-! ## Properties of the write path -/

/-- C3. Outbound encoding: after writing the messages `ms` in order on an empty
outbound buffer, the buffered bytes are the concatenation of their frames and
`buffer_size` is the sum of `8 + n_i`; each `pw_connection_begin_write` returns
the position 8 bytes past `buffer_size` at that time; and the bytes buffered
after any initial part of the messages are still there after the later writes. -/
theorem outbound_encoding (impl : pw_connection_impl) (ms : List msg)
    (h0 : impl.out.buffer_size = 0) (hms : ∀ m ∈ ms, msg_ok m) :
    buffered (write_msgs impl ms).out = (ms.map frame).flatten ∧
    (write_msgs impl ms).out.buffer_size = (ms.map (fun m => 8 + m.payload.length)).sum ∧
    (∀ ms1 m ms2, ms = ms1 ++ m :: ms2 →
      (pw_connection_begin_write (write_msgs impl ms1) m.payload.length).1 =
        (write_msgs impl ms1).out.buffer_size + 8) ∧
    (∀ ms1 ms2, ms = ms1 ++ ms2 →
      load 0 (write_msgs impl ms).out.buffer_data 0 (write_msgs impl ms1).out.buffer_size =
        buffered (write_msgs impl ms1).out) := by
  obtain ⟨h1, h2, -⟩ := write_msgs_buffered ms impl hms
  refine ⟨?_, ?_, ?_, ?_⟩
  · rw [h2]
    simp [buffered, h0, load]
  · rw [h1, h0, Nat.zero_add]
  · intro ms1 m ms2 _
    unfold pw_connection_begin_write
    simp only [ensure_size_fst]
  · intro ms1 ms2 hsplit
    subst hsplit
    have hfold : write_msgs impl (ms1 ++ ms2) = write_msgs (write_msgs impl ms1) ms2 := by
      simp [write_msgs]
    rw [hfold]
    exact (write_msgs_buffered ms2 (write_msgs impl ms1)
      (fun m hm => hms m (List.mem_append_right _ hm))).2.2 0 _ (by omega)

/-- C3, at a concrete input: two messages written on a new connection. -/
theorem outbound_encoding_witness :
    buffered (write_msgs (pw_connection_new 3)
      [{ dest_id := 1, opcode := 2, payload := [170, 187] },
       { dest_id := 258, opcode := 255, payload := [] }]).out
    = [1, 0, 0, 0, 2, 0, 0, 2, 170, 187, 2, 1, 0, 0, 0, 0, 0, 255] := by
  rw [(outbound_encoding (pw_connection_new 3) _ rfl (by decide)).1]
  decide

/-! ## Properties of the read path -/

/-- C1. Round trip over a socket pair: a message written on a new connection
with `begin_write`, payload copy and `end_write`, then flushed by a send that
accepts all buffered bytes, puts exactly its frame on the wire and empties the
outbound buffer; on a new peer connection whose receives bring these bytes in
non-empty pieces, none larger than the room offered to its receive,
`pw_connection_get_next` returns `true` with the opcode, the destination id, the
payload size and a view that reads the payload; the delivery one byte per
receive is such a sequence of receives, for every message. -/
theorem round_trip (m : msg) (hm : msg_ok m) (fa fb : Int) (k : Nat)
    (hk : 8 + m.payload.length ≤ k) :
    ∃ a1,
      pw_connection_flush [.ok k] (write_msg (pw_connection_new fa) m) =
        some (true, a1, some { bytes := frame m, fds := [] }, []) ∧
      a1.out.buffer_size = 0 ∧
      (∀ chunks : List (List Nat × List cmsghdr),
        (chunks.map Prod.fst).flatten = frame m →
        (∀ c ∈ chunks, c.1 ≠ []) →
        recv_within_iov (recv_chunks chunks) (pw_connection_new fb).in_ = true →
        ∃ b1,
          pw_connection_get_next (recv_chunks chunks) (pw_connection_new fb) =
            some (.message m.opcode m.dest_id 8 m.payload.length, b1, []) ∧
          delivered (.message m.opcode m.dest_id 8 m.payload.length) b1.in_ = some m) ∧
      (∃ b1,
        pw_connection_get_next (recv_chunks (bytewise (frame m))) (pw_connection_new fb) =
          some (.message m.opcode m.dest_id 8 m.payload.length, b1, []) ∧
        delivered (.message m.opcode m.dest_id 8 m.payload.length) b1.in_ = some m) := by
  obtain ⟨hsz, -, -, -, hnfds⟩ := write_msg_out (pw_connection_new fa) m hm
  obtain ⟨hfr, -⟩ := write_msg_buffered (pw_connection_new fa) m hm
  have hsz0 : (write_msg (pw_connection_new fa) m).out.buffer_size = 8 + m.payload.length := by
    rw [hsz]
    exact Nat.zero_add _
  have hbuf : buffered (write_msg (pw_connection_new fa) m).out = frame m := by
    unfold buffered
    rw [hsz0]
    exact hfr
  have hfds : flush_fds (write_msg (pw_connection_new fa) m).out = [] := by
    unfold flush_fds
    rw [hnfds]
    rfl
  have hrecv : ∀ chunks : List (List Nat × List cmsghdr),
      (chunks.map Prod.fst).flatten = frame m →
      (∀ c ∈ chunks, c.1 ≠ []) →
      recv_within_iov (recv_chunks chunks) (pw_connection_new fb).in_ = true →
      ∃ b1,
        pw_connection_get_next (recv_chunks chunks) (pw_connection_new fb) =
          some (.message m.opcode m.dest_id 8 m.payload.length, b1, []) ∧
        delivered (.message m.opcode m.dest_id 8 m.payload.length) b1.in_ = some m := by
    intro chunks hflat hne hfit
    obtain ⟨buf1, hget, hload, -, -, -, -⟩ := get_next_buffer_chunks m hm chunks
      (pw_connection_new fb).in_ ⟨rfl, rfl, rfl, rfl⟩ hflat hne hfit
    refine ⟨{ pw_connection_new fb with in_ := buf1 },
      pw_connection_get_next_eq _ _ _ _ _ hget, ?_⟩
    simp only [delivered]
    rw [hload]
  refine ⟨{ write_msg (pw_connection_new fa) m with
      out := { (write_msg (pw_connection_new fa) m).out with buffer_size := 0, n_fds := 0 } },
    ?_, rfl, hrecv, ?_⟩
  · rw [flush_all _ k [] (by omega) (by omega), hbuf, hfds]
  · exact hrecv _ (flatten_bytewise _) (bytewise_ne_nil _)
      (recv_within_iov_bytewise _ _ (by show 1 ≤ MAX_BUFFER_SIZE - 0; decide))

/-- C1, at a concrete input: a two-byte payload that arrives in two pieces. -/
theorem round_trip_witness :
    ∃ a1 b1,
      pw_connection_flush [.ok 10]
          (write_msg (pw_connection_new 3) { dest_id := 258, opcode := 200, payload := [170, 187] })
        = some (true, a1,
            some { bytes := frame { dest_id := 258, opcode := 200, payload := [170, 187] },
                   fds := [] }, []) ∧
      a1.out.buffer_size = 0 ∧
      pw_connection_get_next
          (recv_chunks [([2, 1, 0], []), ([0, 2, 0, 0, 200, 170, 187], [])])
          (pw_connection_new 4)
        = some (.message 200 258 8 2, b1, []) ∧
      delivered (.message 200 258 8 2) b1.in_
        = some { dest_id := 258, opcode := 200, payload := [170, 187] } := by
  obtain ⟨a1, h1, h2, h3, -⟩ :=
    round_trip { dest_id := 258, opcode := 200, payload := [170, 187] } (by decide) 3 4 10
      (by decide)
  obtain ⟨b1, h4, h5⟩ := h3 [([2, 1, 0], []), ([0, 2, 0, 0, 200, 170, 187], [])]
    (by decide) (by decide) (by decide)
  exact ⟨a1, b1, h1, h2, h4, h5⟩

/-- C2. In-order delivery: when a single receive places the frames of the
messages `m :: ms` back to back in an empty inbound buffer, the first call of
`pw_connection_get_next` performs that receive and returns `m`, the following
calls return the messages of `ms` in order without any receive, and one more
call returns `false` on the no-more-messages path and leaves the inbound buffer
empty (`buffer_size`, `offset`, `size` and `n_fds` zero) with `update` set. -/
theorem in_order_delivery (impl : pw_connection_impl) (m : msg) (ms : List msg)
    (control : List cmsghdr) (hms : ∀ x ∈ m :: ms, msg_ok x)
    (hempty : inbound_empty impl.in_)
    (hfit : (((m :: ms).map frame).flatten).length ≤ recv_iov_len impl.in_) :
    ∃ impl1 implk impl2,
      pw_connection_get_next [.ok (((m :: ms).map frame).flatten) control] impl =
        some (.message m.opcode m.dest_id 8 m.payload.length, impl1, []) ∧
      delivered (.message m.opcode m.dest_id 8 m.payload.length) impl1.in_ = some m ∧
      read_msgs ms.length [] impl1 = some (ms.map some, implk, []) ∧
      read_msgs (m :: ms).length [.ok (((m :: ms).map frame).flatten) control] impl =
        some ((m :: ms).map some, implk, []) ∧
      pw_connection_get_next [] implk = some (.no_more, impl2, []) ∧
      impl2.in_.buffer_size = 0 ∧ impl2.in_.offset = 0 ∧ impl2.in_.size = 0 ∧
      impl2.in_.n_fds = 0 ∧ impl2.in_.update = true := by
  have hm : msg_ok m := hms m (List.mem_cons_self _ _)
  have hfl := length_frame m
  simp only [List.map_cons, List.flatten_cons] at hfit ⊢
  have hfirst := get_next_buffer_first m hm ((ms.map frame).flatten) control [] impl.in_
    hempty hfit
  have hfirst2 := pw_connection_get_next_eq _ _ _ _ _ hfirst
  obtain ⟨hdata, hsize, -, -, -, -, -⟩ :=
    refill_buffer_ok_frame impl.in_ (frame m ++ (ms.map frame).flatten) control
  rw [List.take_of_length_le hfit] at hdata hsize
  rw [hempty.1] at hdata hsize
  have hpeek : ∀ i, i < (frame m ++ (ms.map frame).flatten).length →
      peek 0 (refill_buffer_ok impl.in_ (frame m ++ (ms.map frame).flatten) control).buffer_data i
        = peek 0 (frame m ++ (ms.map frame).flatten) i := by
    intro i hi
    rw [hdata, peek_store, if_neg (Nat.not_lt_zero _), if_pos (by omega), Nat.sub_zero]
  obtain ⟨implk, hrest, hk1, hk2, hk3, -, -⟩ := read_msgs_buffered [] ms
    { impl with in_ :=
        { refill_buffer_ok impl.in_ (frame m ++ (ms.map frame).flatten) control with
          update := false
          size := m.payload.length
          data := 8
          offset := 8 } }
    (fun x hx => hms x (List.mem_cons_of_mem _ hx)) rfl
    (by simp only [hsize, List.length_append]; omega)
    (fun i hi => by
      simp only
      rw [hpeek _ (by simp only [List.length_append]; omega)]
      unfold peek
      rw [List.getD_append_right _ _ _ _ (by omega)]
      congr 1
      omega)
  have hpay : load 0
      (refill_buffer_ok impl.in_ (frame m ++ (ms.map frame).flatten) control).buffer_data 8
      m.payload.length = m.payload := by
    rw [load_eq_iff]
    refine ⟨rfl, fun i hi => ?_⟩
    rw [hpeek _ (by simp only [List.length_append]; omega)]
    unfold peek
    rw [List.getD_append _ _ _ _ (by omega)]
    exact peek_frame_payload m i
  have hlast := get_next_buffer_exhausted [] implk.in_ hk1 (by omega)
  have hlast2 := pw_connection_get_next_eq _ _ _ _ _ hlast
  refine ⟨_, implk, _, hfirst2, ?_, hrest, ?_, hlast2, rfl, rfl, rfl, rfl, rfl⟩
  · simp only [delivered]
    rw [hpay]
  · simp only [List.length_cons, read_msgs, hfirst2, hrest, List.map_cons, delivered]
    rw [hpay]

/-- C2, at a concrete input: three messages received at once on a new connection. -/
theorem in_order_delivery_witness :
    ∃ implk,
      read_msgs 3
        [.ok [1, 0, 0, 0, 1, 0, 0, 10, 7, 2, 0, 0, 0, 0, 0, 0, 20, 3, 0, 0, 0, 2, 0, 0, 30, 8, 9] []]
        (pw_connection_new 4)
      = some ([some { dest_id := 1, opcode := 10, payload := [7] },
               some { dest_id := 2, opcode := 20, payload := [] },
               some { dest_id := 3, opcode := 30, payload := [8, 9] }], implk, []) ∧
      (pw_connection_get_next [] implk).map (fun r => r.1) = some .no_more := by
  obtain ⟨impl1, implk, impl2, -, -, -, h, hlast, -⟩ :=
    in_order_delivery (pw_connection_new 4) { dest_id := 1, opcode := 10, payload := [7] }
      [{ dest_id := 2, opcode := 20, payload := [] },
       { dest_id := 3, opcode := 30, payload := [8, 9] }] [] (by decide) (by decide) (by decide)
  exact ⟨implk, h, by rw [hlast]; rfl⟩

/-- C4. Framing does not depend on how the byte stream is cut: on an empty
inbound buffer, when consecutive receives bring the frame of a message in
non-empty pieces, none larger than the room offered to its receive, one call of
`pw_connection_get_next` performs all these receives and returns the message,
and when the first piece has fewer than 8 bytes the call has not returned after
that receive alone; the message returned is the one returned when the frame
arrives in one receive; the delivery one byte per receive is such a sequence. -/
theorem chunked_delivery (impl : pw_connection_impl) (m : msg) (hm : msg_ok m)
    (hempty : inbound_empty impl.in_) :
    (∀ chunks : List (List Nat × List cmsghdr),
      (chunks.map Prod.fst).flatten = frame m →
      (∀ c ∈ chunks, c.1 ≠ []) →
      recv_within_iov (recv_chunks chunks) impl.in_ = true →
      (∃ impl1,
        pw_connection_get_next (recv_chunks chunks) impl =
          some (.message m.opcode m.dest_id 8 m.payload.length, impl1, []) ∧
        delivered (.message m.opcode m.dest_id 8 m.payload.length) impl1.in_ = some m) ∧
      (∀ c rest, chunks = c :: rest → c.1.length < 8 →
        pw_connection_get_next (recv_chunks [c]) impl = none)) ∧
    ((frame m).length ≤ recv_iov_len impl.in_ →
      ∃ impl2,
        pw_connection_get_next [.ok (frame m) []] impl =
          some (.message m.opcode m.dest_id 8 m.payload.length, impl2, []) ∧
        delivered (.message m.opcode m.dest_id 8 m.payload.length) impl2.in_ = some m) ∧
    (1 ≤ recv_iov_len impl.in_ →
      ∃ impl3,
        pw_connection_get_next (recv_chunks (bytewise (frame m))) impl =
          some (.message m.opcode m.dest_id 8 m.payload.length, impl3, []) ∧
        delivered (.message m.opcode m.dest_id 8 m.payload.length) impl3.in_ = some m) := by
  have hrecv : ∀ chunks : List (List Nat × List cmsghdr),
      (chunks.map Prod.fst).flatten = frame m →
      (∀ c ∈ chunks, c.1 ≠ []) →
      recv_within_iov (recv_chunks chunks) impl.in_ = true →
      ∃ impl1,
        pw_connection_get_next (recv_chunks chunks) impl =
          some (.message m.opcode m.dest_id 8 m.payload.length, impl1, []) ∧
        delivered (.message m.opcode m.dest_id 8 m.payload.length) impl1.in_ = some m := by
    intro chunks hflat hne hfit
    obtain ⟨buf1, hget, hload, -, -, -, -⟩ :=
      get_next_buffer_chunks m hm chunks impl.in_ hempty hflat hne hfit
    refine ⟨{ impl with in_ := buf1 }, pw_connection_get_next_eq _ _ _ _ _ hget, ?_⟩
    simp only [delivered]
    rw [hload]
  refine ⟨fun chunks hflat hne hfit => ⟨hrecv chunks hflat hne hfit, ?_⟩, ?_, ?_⟩
  · intro c rest hc h8
    subst hc
    have hb : c.1 ≠ [] := hne c (List.mem_cons_self _ _)
    simp only [recv_chunks, List.map_cons, recv_within_iov, Bool.and_eq_true,
      decide_eq_true_eq] at hfit
    unfold pw_connection_get_next
    rw [get_next_buffer_empty _ _ hempty]
    have := get_next_again_short c.1 c.2 impl.in_ (by rw [hempty.1, hempty.2.1]) hb h8 hfit.1
    simp only [recv_chunks, List.map_cons, List.map_nil]
    rw [this]
    rfl
  · intro hone
    have hfl := length_frame m
    have hfirst := get_next_buffer_first m hm [] [] [] impl.in_ hempty
      (by rw [List.append_nil]; exact hone)
    rw [List.append_nil] at hfirst
    refine ⟨_, pw_connection_get_next_eq _ _ _ _ _ hfirst, ?_⟩
    obtain ⟨hdata, -, -, -, -, -, -⟩ := refill_buffer_ok_frame impl.in_ (frame m) []
    rw [List.take_of_length_le hone, hempty.1] at hdata
    simp only [delivered, hdata, Option.some.injEq]
    have hpay : load 0 (store 0 impl.in_.buffer_data 0 (frame m)) 8 m.payload.length
        = m.payload := by
      rw [load_eq_iff]
      refine ⟨rfl, fun i hi => ?_⟩
      rw [peek_store, if_neg (Nat.not_lt_zero _), if_pos (by omega), Nat.sub_zero]
      exact peek_frame_payload m i
    rw [hpay]
  · intro hroom
    exact hrecv _ (flatten_bytewise _) (bytewise_ne_nil _)
      (recv_within_iov_bytewise _ _ hroom)

/-- C4, at a concrete input: a header that arrives as 5 bytes and then 3. -/
theorem chunked_delivery_witness :
    (∃ impl1,
      pw_connection_get_next (recv_chunks [([7, 0, 0, 0, 0], []), ([0, 0, 9], [])])
          (pw_connection_new 4)
        = some (.message 9 7 8 0, impl1, []) ∧
      delivered (.message 9 7 8 0) impl1.in_ = some { dest_id := 7, opcode := 9, payload := [] }) ∧
    pw_connection_get_next (recv_chunks [([7, 0, 0, 0, 0], [])]) (pw_connection_new 4) = none :=
  ⟨((chunked_delivery (pw_connection_new 4) { dest_id := 7, opcode := 9, payload := [] }
      (by decide) (by decide)).1 [([7, 0, 0, 0, 0], []), ([0, 0, 9], [])] (by decide) (by decide)
      (by decide)).1,
   ((chunked_delivery (pw_connection_new 4) { dest_id := 7, opcode := 9, payload := [] }
      (by decide) (by decide)).1 [([7, 0, 0, 0, 0], []), ([0, 0, 9], [])] (by decide) (by decide)
      (by decide)).2 _ _ rfl (by decide)⟩

/-! ## Where the code departs from the claims -/

/-- C5. A short send does not keep the unsent remainder.  A new connection
holds the 10 bytes of one frame; a flush whose send accepts 4 of them leaves
`buffer_data[0 .. 6)` buffered, not the unsent bytes 4 to 10, and the next flush
sends the first 6 bytes again. -/
theorem flush_short_send_resends_head :
    buffered (write_msg (pw_connection_new 3)
        { dest_id := 1, opcode := 2, payload := [170, 187] }).out
      = [1, 0, 0, 0, 2, 0, 0, 2, 170, 187] ∧
    ∃ c1 c2,
      pw_connection_flush [.ok 4] (write_msg (pw_connection_new 3)
          { dest_id := 1, opcode := 2, payload := [170, 187] })
        = some (true, c1, some { bytes := [1, 0, 0, 0], fds := [] }, []) ∧
      buffered c1.out = [1, 0, 0, 0, 2, 0] ∧
      buffered c1.out ≠ [2, 0, 0, 2, 170, 187] ∧
      pw_connection_flush [.ok 6] c1
        = some (true, c2, some { bytes := [1, 0, 0, 0, 2, 0], fds := [] }, []) ∧
      c2.out.buffer_size = 0 :=
  ⟨by decide, _, _, rfl, by decide, by decide, rfl, rfl⟩

/-- C6. A receive of zero bytes is not an error.  On a new connection whose
first receive brings 5 bytes of a header, however many receives of zero bytes
follow, `pw_connection_get_next` has not returned: it asks for another receive. -/
theorem get_next_zero_receive_spins (n : Nat) :
    pw_connection_get_next (.ok [1, 0, 0, 0, 2] [] :: List.replicate n (.ok [] []))
      (pw_connection_new 4) = none := by
  unfold pw_connection_get_next
  rw [get_next_buffer_empty _ _ ⟨rfl, rfl, rfl, rfl⟩]
  have hparse : get_next_parse
      { refill_buffer_ok (pw_connection_new 4).in_ [1, 0, 0, 0, 2] [] with update := false }
      = .again { (connection_ensure_size
          { refill_buffer_ok (pw_connection_new 4).in_ [1, 0, 0, 0, 2] [] with update := false }
          8).2 with update := true } := by
    decide
  simp only [get_next_again, hparse]
  rw [get_next_again_zero n _ (by decide) (by decide)]
  rfl

/-- C7. A failed receive moves the cursor.  After a message with a one-byte
payload has been delivered and 4 bytes of the next frame are buffered, the call
that follows delivers the next message `(dest_id 2, opcode 0, payload [9])` when
its receive brings the missing bytes; but when a call with a failed receive
comes in between, the call after it starts one byte too far and delivers
`(dest_id 16777216, opcode 9, empty payload)`. -/
theorem get_next_after_failed_receive :
    ∃ c1 c2 c3 c4,
      pw_connection_get_next [.ok [1, 0, 0, 0, 1, 0, 0, 1, 7, 2, 0, 0, 0] []]
          (pw_connection_new 4)
        = some (.message 1 1 8 1, c1, []) ∧
      pw_connection_get_next [.ok [1, 0, 0, 0, 9] []] c1 = some (.message 0 2 17 1, c2, []) ∧
      delivered (.message 0 2 17 1) c2.in_ = some { dest_id := 2, opcode := 0, payload := [9] } ∧
      pw_connection_get_next [.error] c1 = some (.recv_error, c3, []) ∧
      pw_connection_get_next [.ok [1, 0, 0, 0, 9] []] c3
        = some (.message 9 16777216 18 0, c4, []) ∧
      delivered (.message 9 16777216 18 0) c4.in_
        = some { dest_id := 16777216, opcode := 9, payload := [] } :=
  ⟨_, _, _, _, rfl, rfl, by decide, rfl, rfl, by decide⟩

/-- C8, as stated, fails: the second receive of this call brings no descriptor,
the call returns a message, and index 0 still yields the descriptor 5 of the
first receive. -/
theorem get_fd_after_receive_without_fds :
    ∃ c1,
      pw_connection_get_next [.ok [7, 0, 0, 0, 0] [.scm_rights [5]], .ok [0, 0, 9] []]
          (pw_connection_new 4)
        = some (.message 9 7 8 0, c1, []) ∧
      pw_connection_get_fd c1 0 = 5 ∧ pw_connection_get_fd c1 0 ≠ -1 :=
  ⟨_, rfl, by decide, by decide⟩

/-- C8, amended. Received descriptors are replaced by the last descriptor
message, not accumulated: when `pw_connection_get_next` returns a message after
performing the receives of the script, and the last `SCM_RIGHTS` control message
of these receives carried `fds` (of which `MAX_FDS` at most are kept),
`pw_connection_get_fd` returns `fds[index]` below their number and -1 from there
on; when no receive of the call carried such a message, it returns what it
returned before the call. -/
theorem get_fd_after_get_next (script : List recvmsg_ret) (impl : pw_connection_impl)
    (o d dt sz : Nat) (impl1 : pw_connection_impl)
    (h : pw_connection_get_next script impl = some (.message o d dt sz, impl1, []))
    (index : Nat) :
    pw_connection_get_fd impl1 index =
      match last_rights script with
      | some fds => if index < fds.length then peek 0 fds index else -1
      | none => pw_connection_get_fd impl index := by
  have key : held impl1.in_ = (last_rights script).getD (held impl.in_) := by
    unfold pw_connection_get_next at h
    cases hb : get_next_buffer script impl.in_ with
    | none =>
      rw [hb] at h
      cases h
    | some res =>
      obtain ⟨r, buf1, rest⟩ := res
      rw [hb] at h
      simp only [Option.map_some', Option.some.injEq, Prod.mk.injEq] at h
      obtain ⟨h1, h2, h3⟩ := h
      subst h1 h2 h3
      show held buf1 = _
      unfold get_next_buffer at hb
      simp only [] at hb
      split at hb
      · have := held_get_next_again script _ o d dt sz buf1 hb
        exact this
      · cases hparse : get_next_parse
            { impl.in_ with offset := impl.in_.offset + impl.in_.size } with
        | ret r b =>
          rw [hparse] at hb
          simp only [Option.some.injEq, Prod.mk.injEq] at hb
          obtain ⟨h1, h2, h3⟩ := hb
          subst h1 h2 h3
          rw [held_get_next_parse_ret _ o d dt sz b hparse]
          rfl
        | again b =>
          rw [hparse] at hb
          simp only at hb
          rw [held_get_next_again script b o d dt sz buf1 hb,
            held_get_next_parse_again _ b hparse]
          rfl
  rw [get_fd_eq_held impl1, key]
  cases last_rights script with
  | some fds => rfl
  | none => exact (get_fd_eq_held impl index).symm

/-- C8, amended, at a concrete input: the two descriptors of the second receive
replace the one of the first. -/
theorem get_fd_after_get_next_witness :
    ∃ c1,
      pw_connection_get_next
          [.ok [7, 0, 0, 0, 0] [.scm_rights [5]], .ok [0, 0, 9] [.scm_rights [11, 12]]]
          (pw_connection_new 4)
        = some (.message 9 7 8 0, c1, []) ∧
      pw_connection_get_fd c1 0 = 11 ∧ pw_connection_get_fd c1 1 = 12 ∧
      pw_connection_get_fd c1 2 = -1 :=
  ⟨_, rfl,
    get_fd_after_get_next
      [.ok [7, 0, 0, 0, 0] [.scm_rights [5]], .ok [0, 0, 9] [.scm_rights [11, 12]]]
      (pw_connection_new 4) 9 7 8 0 _ rfl 0,
    get_fd_after_get_next
      [.ok [7, 0, 0, 0, 0] [.scm_rights [5]], .ok [0, 0, 9] [.scm_rights [11, 12]]]
      (pw_connection_new 4) 9 7 8 0 _ rfl 1,
    get_fd_after_get_next
      [.ok [7, 0, 0, 0, 0] [.scm_rights [5]], .ok [0, 0, 9] [.scm_rights [11, 12]]]
      (pw_connection_new 4) 9 7 8 0 _ rfl 2⟩

/-! ## Accessors, growth, flush outcome and clear -/

/-- C11. `pw_connection_get_fd` is bounds-checked: it returns -1 for an index at
or past the inbound descriptor count (and the inbound sequence has no entry
there), and below the count it returns `in.fds[index]`, the entry of the inbound
sequence at that index.  The function only reads the connection. -/
theorem get_fd_bounds (impl : pw_connection_impl) (index : Nat) :
    (impl.in_.n_fds ≤ index →
      pw_connection_get_fd impl index = -1 ∧ (held impl.in_)[index]? = none) ∧
    (index < impl.in_.n_fds →
      pw_connection_get_fd impl index = peek 0 impl.in_.fds index ∧
      (held impl.in_)[index]? = some (pw_connection_get_fd impl index)) := by
  constructor
  · intro h
    refine ⟨?_, ?_⟩
    · unfold pw_connection_get_fd
      rw [if_pos h]
    · rw [List.getElem?_eq_none]
      rw [held, length_load]
      exact h
  · intro h
    have hval : pw_connection_get_fd impl index = peek 0 impl.in_.fds index := by
      unfold pw_connection_get_fd
      rw [if_neg (by omega)]
    refine ⟨hval, ?_⟩
    rw [hval]
    have hlen : index < (held impl.in_).length := by
      rw [held, length_load]
      exact h
    have h1 : peek 0 (held impl.in_) index = peek 0 impl.in_.fds index := by
      have := peek_load 0 impl.in_.fds 0 impl.in_.n_fds index h
      rw [Nat.zero_add] at this
      exact this
    rw [← h1]
    unfold peek
    rw [List.getD_eq_getElem?_getD, List.getElem?_eq_getElem hlen]
    rfl

/-- C12. Growth rule of `connection_ensure_size`: the capacity is unchanged when
`buffer_size + a` fits, and otherwise becomes the smallest multiple of 4096 at or
above `buffer_size + a`; afterwards `buffer_size + a` fits, the capacity has not
decreased, every other field (`buffer_size` and the storage among them) is
unchanged, the position returned is `buffer_size`, and a second call with the
same `a` changes nothing and returns the same position. -/
theorem ensure_size_growth (buf : buffer) (a : Nat) :
    (buf.buffer_size + a ≤ buf.buffer_maxsize →
      (connection_ensure_size buf a).2.buffer_maxsize = buf.buffer_maxsize) ∧
    (buf.buffer_maxsize < buf.buffer_size + a →
      4096 ∣ (connection_ensure_size buf a).2.buffer_maxsize ∧
      ∀ c, 4096 ∣ c → buf.buffer_size + a ≤ c →
        (connection_ensure_size buf a).2.buffer_maxsize ≤ c) ∧
    buf.buffer_size + a ≤ (connection_ensure_size buf a).2.buffer_maxsize ∧
    buf.buffer_maxsize ≤ (connection_ensure_size buf a).2.buffer_maxsize ∧
    (connection_ensure_size buf a).2 =
      { buf with buffer_maxsize := (connection_ensure_size buf a).2.buffer_maxsize } ∧
    (connection_ensure_size buf a).2.buffer_size = buf.buffer_size ∧
    (connection_ensure_size buf a).2.buffer_data = buf.buffer_data ∧
    (connection_ensure_size buf a).1 = buf.buffer_size ∧
    connection_ensure_size (connection_ensure_size buf a).2 a = connection_ensure_size buf a := by
  obtain ⟨h1, h2, h3, h4⟩ := connection_ensure_size_frame buf a
  refine ⟨?_, ?_, h3, h4, h2, ensure_size_size buf a, ensure_size_data buf a, h1, ?_⟩
  · intro h
    unfold connection_ensure_size
    rw [if_neg (by omega)]
  · intro h
    unfold connection_ensure_size
    rw [if_pos (by omega)]
    simp only [SPA_ROUND_UP_N, MAX_BUFFER_SIZE]
    refine ⟨Nat.dvd_mul_left _ _, ?_⟩
    intro c hc hle
    obtain ⟨k, rfl⟩ := hc
    have : (buf.buffer_size + a + (4096 - 1)) / 4096 ≤ k := by omega
    calc (buf.buffer_size + a + (4096 - 1)) / 4096 * 4096
        ≤ k * 4096 := Nat.mul_le_mul_right _ this
      _ = 4096 * k := Nat.mul_comm _ _
  · have key : ∀ b : buffer, b.buffer_size + a ≤ b.buffer_maxsize →
        connection_ensure_size b a = (b.buffer_size, b) := by
      intro b hb
      unfold connection_ensure_size
      rw [if_neg (by omega)]
    rw [key _ (by rw [ensure_size_size]; exact h3)]
    exact Prod.ext (by rw [ensure_size_size, h1]) rfl

/-- C14. `pw_connection_clear` always returns `true`, leaves both buffers with
`buffer_size`, `offset`, `size` and `n_fds` zero, sets `update` on the inbound
buffer, keeps both capacities, and applied twice gives the state it gives when
applied once. -/
theorem clear_idempotent (impl : pw_connection_impl) :
    (pw_connection_clear impl).1 = true ∧
    (pw_connection_clear impl).2.in_.buffer_size = 0 ∧
    (pw_connection_clear impl).2.in_.offset = 0 ∧
    (pw_connection_clear impl).2.in_.size = 0 ∧
    (pw_connection_clear impl).2.in_.n_fds = 0 ∧
    (pw_connection_clear impl).2.in_.update = true ∧
    (pw_connection_clear impl).2.out.buffer_size = 0 ∧
    (pw_connection_clear impl).2.out.offset = 0 ∧
    (pw_connection_clear impl).2.out.size = 0 ∧
    (pw_connection_clear impl).2.out.n_fds = 0 ∧
    (pw_connection_clear impl).2.in_.buffer_maxsize = impl.in_.buffer_maxsize ∧
    (pw_connection_clear impl).2.out.buffer_maxsize = impl.out.buffer_maxsize ∧
    pw_connection_clear (pw_connection_clear impl).2 = pw_connection_clear impl :=
  ⟨rfl, rfl, rfl, rfl, rfl, rfl, rfl, rfl, rfl, rfl, rfl, rfl, rfl⟩

/-- C13. Outcome of `pw_connection_flush`.  On an empty outbound buffer it
returns `true` without a send and changes nothing.  On a non-empty one,
interrupted sends are retried and never reported; an error other than `EINTR`
makes it return `false` with the connection unchanged; a send that accepts `len`
bytes makes it return `true` with `buffer_size` reduced by exactly `len` and the
staged descriptor sequence empty.  It returns `false` in no other case. -/
theorem flush_outcome (impl : pw_connection_impl) :
    (impl.out.buffer_size = 0 →
      ∀ script, pw_connection_flush script impl = some (true, impl, none, script)) ∧
    (impl.out.buffer_size ≠ 0 → ∀ (j : Nat) (rest : List sendmsg_ret),
      pw_connection_flush (List.replicate j .eintr ++ .error :: rest) impl =
        some (false, impl, none, rest) ∧
      pw_connection_flush (List.replicate j .eintr) impl = none ∧
      ∀ k, ∃ impl1 w,
        pw_connection_flush (List.replicate j .eintr ++ .ok k :: rest) impl =
          some (true, impl1, some w, rest) ∧
        impl1.out.buffer_size + min k impl.out.buffer_size = impl.out.buffer_size ∧
        w.bytes = load 0 impl.out.buffer_data 0 (min k impl.out.buffer_size) ∧
        w.fds = flush_fds impl.out ∧
        staged impl1 = [] ∧ impl1.out.n_fds = 0 ∧
        impl1.out.buffer_data = impl.out.buffer_data ∧ impl1.in_ = impl.in_) ∧
    (∀ script impl1 w rest,
      pw_connection_flush script impl = some (false, impl1, w, rest) →
      impl.out.buffer_size ≠ 0 ∧ impl1 = impl ∧ w = none ∧
      ∃ j, script = List.replicate j .eintr ++ .error :: rest) := by
  refine ⟨?_, ?_, ?_⟩
  · intro h script
    unfold pw_connection_flush
    rw [if_pos h]
  · intro h j rest
    unfold pw_connection_flush
    simp only [if_neg h, flush_send_eintr]
    refine ⟨rfl, ?_, ?_⟩
    · have := flush_send_eintr j [] impl
      rw [List.append_nil] at this
      rw [this]
      rfl
    · intro k
      refine ⟨_, _, rfl, ?_, rfl, rfl, rfl, rfl, rfl, rfl⟩
      show impl.out.buffer_size - min k impl.out.buffer_size + min k impl.out.buffer_size
        = impl.out.buffer_size
      omega
  · intro script impl1 w rest h
    unfold pw_connection_flush at h
    by_cases h0 : impl.out.buffer_size = 0
    · rw [if_pos h0] at h
      simp only [Option.some.injEq, Prod.mk.injEq] at h
      exact absurd h.1 (by decide)
    · rw [if_neg h0] at h
      exact ⟨h0, flush_send_false script impl impl1 w rest h⟩

/-! ## Invariants and bounds of the buffers -/

/-- C17. Capacity and descriptor-count invariant: `buffer_size <= buffer_maxsize`
and `n_fds <= 28` on both buffers hold for a new connection and, when they hold,
still hold after `add_fd`, `begin_write`, `end_write` with any size, every return
of `flush`, `clear`, and every return of `get_next` (a send accepts at most the
bytes offered, a receive brings at most the room offered and 28 descriptors). -/
theorem invariant_preserved (impl : pw_connection_impl) (h : connection_inv impl) :
    (∀ fd, connection_inv (pw_connection_new fd)) ∧
    (∀ fd, connection_inv (pw_connection_add_fd impl fd).2) ∧
    (∀ size, connection_inv (pw_connection_begin_write impl size).2) ∧
    (∀ dest_id opcode size, connection_inv (pw_connection_end_write impl dest_id opcode size)) ∧
    (∀ script r impl1 w rest,
      pw_connection_flush script impl = some (r, impl1, w, rest) → connection_inv impl1) ∧
    connection_inv (pw_connection_clear impl).2 ∧
    (∀ script r impl1 rest,
      pw_connection_get_next script impl = some (r, impl1, rest) → connection_inv impl1) := by
  refine ⟨?_, ?_, ?_, ?_, ?_, ?_, ?_⟩
  · intro fd
    exact ⟨⟨Nat.zero_le _, Nat.zero_le _⟩, ⟨Nat.zero_le _, Nat.zero_le _⟩⟩
  · intro fd
    rcases add_fd_cases impl fd with ⟨i, -, -, -, heq⟩ | ⟨-, -, heq⟩ | ⟨-, hroom, heq⟩
    · rw [heq]
      exact h
    · rw [heq]
      exact h
    · rw [heq]
      exact ⟨h.1, h.2.1, hroom⟩
  · intro size
    unfold pw_connection_begin_write
    have := (connection_ensure_size_frame impl.out ((8 + size) % 4294967296)).2.2.2
    refine ⟨h.1, ?_, ?_⟩
    · simp only [ensure_size_size]
      exact Nat.le_trans h.2.1 this
    · simp only [(ensure_size_fds _ _).2]
      exact h.2.2
  · intro dest_id opcode size
    unfold pw_connection_end_write
    have := (connection_ensure_size_frame impl.out ((8 + size) % 4294967296)).2.2.1
    refine ⟨h.1, ?_, ?_⟩
    · simp only [ensure_size_size]
      exact this
    · simp only [(ensure_size_fds _ _).2]
      exact h.2.2
  · intro script r impl1 w rest hf
    unfold pw_connection_flush at hf
    split at hf
    · simp only [Option.some.injEq, Prod.mk.injEq] at hf
      obtain ⟨-, h1, -, -⟩ := hf
      subst h1
      exact h
    · exact flush_send_inv script impl h r impl1 w rest hf
  · exact ⟨⟨Nat.zero_le _, Nat.zero_le _⟩, ⟨Nat.zero_le _, Nat.zero_le _⟩⟩
  · intro script r impl1 rest hg
    obtain ⟨b, hb, himpl⟩ := pw_connection_get_next_some script impl r impl1 rest hg
    subst himpl
    exact ⟨get_next_buffer_inv script impl.in_ r b rest h.1 hb, h.2⟩

/-- C17, at a concrete input: the connection after a first message has arrived. -/
theorem invariant_preserved_witness :
    connection_inv (pw_connection_new 3) ∧
    ∀ r impl1 rest,
      pw_connection_get_next [.ok [7, 0, 0, 0, 0, 0, 0, 9] [.scm_rights [5, 6]]]
        (pw_connection_new 3) = some (r, impl1, rest) →
      connection_inv impl1 :=
  ⟨by decide, fun r impl1 rest =>
    (invariant_preserved (pw_connection_new 3) (by decide)).2.2.2.2.2.2 _ r impl1 rest⟩

/-- C19. A delivered view stays inside the buffered data: from an inbound buffer
with `buffer_size <= buffer_maxsize`, whatever the receives bring, when
`pw_connection_get_next` returns a message the view starts at an offset `dt` at
least 8, `dt + sz` is at most `buffer_size`, which is at most `buffer_maxsize`;
the destination id and the opcode are read from the 8 bytes before `dt`, and
`sz` is the low 24 bits of the second header word. -/
theorem delivered_view_in_bounds (script : List recvmsg_ret) (impl : pw_connection_impl)
    (o d dt sz : Nat) (impl1 : pw_connection_impl) (rest : List recvmsg_ret)
    (hcap : impl.in_.buffer_size ≤ impl.in_.buffer_maxsize)
    (h : pw_connection_get_next script impl = some (.message o d dt sz, impl1, rest)) :
    8 ≤ dt ∧ dt + sz ≤ impl1.in_.buffer_size ∧
    impl1.in_.buffer_size ≤ impl1.in_.buffer_maxsize ∧
    d = load32 impl1.in_.buffer_data (dt - 8) ∧
    o = (load32 impl1.in_.buffer_data (dt - 4) >>> 24) % 256 ∧
    sz = load32 impl1.in_.buffer_data (dt - 4) &&& 0xffffff ∧
    impl1.in_.data = dt ∧ impl1.in_.size = sz ∧ impl1.in_.offset = dt := by
  obtain ⟨b, hb, himpl⟩ := pw_connection_get_next_some script impl _ impl1 rest h
  subst himpl
  rcases get_next_buffer_ret (fun x => x.buffer_size ≤ x.buffer_maxsize) (fun _ hx => hx)
    (fun buf bytes control hx => by
      obtain ⟨-, hsize, hmax, -, -, -, -⟩ := refill_buffer_ok_frame buf bytes control
      simp only [hsize, hmax, List.length_take, recv_iov_len]
      omega)
    (fun buf b1 _ hp => by
      have := recv_iov_len_again buf b1 hp
      unfold recv_iov_len at this
      omega)
    script impl.in_ _ b rest hcap hb with ⟨hr, -⟩ | ⟨mid, hmid, hp⟩
  · cases hr
  · obtain ⟨hbeq, hdt, hle, hd, ho, hsz⟩ := get_next_parse_message mid o d dt sz b hp
    subst hbeq
    exact ⟨by omega, hle, hmid, hd, ho, hsz, rfl, rfl, rfl⟩

/-- C19, at a concrete input: a message with a one-byte payload, with the start
of the next frame behind it. -/
theorem delivered_view_in_bounds_witness :
    ∃ c1,
      pw_connection_get_next [.ok [1, 0, 0, 0, 1, 0, 0, 1, 7, 2, 0, 0, 0] []]
          (pw_connection_new 4)
        = some (.message 1 1 8 1, c1, []) ∧
      8 ≤ 8 ∧ 8 + 1 ≤ c1.in_.buffer_size ∧ c1.in_.buffer_size ≤ c1.in_.buffer_maxsize ∧
      1 = load32 c1.in_.buffer_data (8 - 4) &&& 0xffffff :=
  ⟨_, rfl,
    (delivered_view_in_bounds [.ok [1, 0, 0, 0, 1, 0, 0, 1, 7, 2, 0, 0, 0] []]
      (pw_connection_new 4) 1 1 8 1 _ [] (by decide) rfl).1,
    (delivered_view_in_bounds [.ok [1, 0, 0, 0, 1, 0, 0, 1, 7, 2, 0, 0, 0] []]
      (pw_connection_new 4) 1 1 8 1 _ [] (by decide) rfl).2.1,
    (delivered_view_in_bounds [.ok [1, 0, 0, 0, 1, 0, 0, 1, 7, 2, 0, 0, 0] []]
      (pw_connection_new 4) 1 1 8 1 _ [] (by decide) rfl).2.2.1,
    (delivered_view_in_bounds [.ok [1, 0, 0, 0, 1, 0, 0, 1, 7, 2, 0, 0, 0] []]
      (pw_connection_new 4) 1 1 8 1 _ [] (by decide) rfl).2.2.2.2.2.1⟩

/-- C18. The read cursor can pass the end of the buffered data.  A message
with a 5-byte payload is delivered and one more byte is buffered; two calls whose
receive fails follow; each adds the payload size to `offset` again, and the
second returns with `offset` 18 and `buffer_size` 14. -/
theorem cursor_after_failed_receives :
    ∃ c1 c2 c3,
      pw_connection_get_next [.ok [1, 0, 0, 0, 5, 0, 0, 1, 1, 2, 3, 4, 5, 2] []]
          (pw_connection_new 4)
        = some (.message 1 1 8 5, c1, []) ∧
      pw_connection_get_next [.error] c1 = some (.recv_error, c2, []) ∧
      c2.in_.offset = 13 ∧ c2.in_.buffer_size = 14 ∧
      pw_connection_get_next [.error] c2 = some (.recv_error, c3, []) ∧
      c3.in_.offset = 18 ∧ c3.in_.buffer_size = 14 ∧
      ¬ c3.in_.offset ≤ c3.in_.buffer_size :=
  ⟨_, _, _, rfl, rfl, rfl, rfl, rfl, rfl, rfl, by decide⟩

/-- C20. One grow-and-refill cycle suffices.  When the parser grows the buffer
for a short header (`r < 8` bytes past the cursor) the room offered to the next
receive is at least `8 - r`, when it grows it for a short payload (`len`
declared, `s < len` bytes past the header) the room is at least `len - s`, and
in both cases the room is not zero.  When a complete header is buffered with
nothing behind it and `len > 0` is exactly the room left, the call needs a
receive, one receive that brings the `len` payload bytes makes it return the
message, and the capacity is the same afterwards. -/
theorem grow_step_room (buf : buffer) (hlt : buf.offset < buf.buffer_size) :
    (buf.buffer_size - buf.offset < 8 →
      ∃ b, get_next_parse buf = .again b ∧
        8 - (buf.buffer_size - buf.offset) ≤ recv_iov_len b ∧ 1 ≤ recv_iov_len b ∧
        b.buffer_size = buf.buffer_size ∧ b.offset = buf.offset ∧ b.update = true) ∧
    (8 ≤ buf.buffer_size - buf.offset →
      buf.buffer_size - buf.offset - 8 < load32 buf.buffer_data (buf.offset + 4) &&& 0xffffff →
      ∃ b, get_next_parse buf = .again b ∧
        (load32 buf.buffer_data (buf.offset + 4) &&& 0xffffff)
          - (buf.buffer_size - buf.offset - 8) ≤ recv_iov_len b ∧
        1 ≤ recv_iov_len b ∧
        b.buffer_size = buf.buffer_size ∧ b.offset = buf.offset ∧ b.update = true) ∧
    (∀ (m : msg) (control : List cmsghdr),
      msg_ok m → buf.buffer_size = buf.offset + 8 →
      (∀ i, i < 8 → peek 0 buf.buffer_data (buf.offset + i) = peek 0 (frame m) i) →
      0 < m.payload.length → m.payload.length = recv_iov_len buf →
      get_next_parse buf = .again { buf with update := true } ∧
      get_next_again [] { buf with update := true } = none ∧
      ∃ b1,
        get_next_again [.ok m.payload control] { buf with update := true } =
          some (.message m.opcode m.dest_id (buf.offset + 8) m.payload.length, b1, []) ∧
        load 0 b1.buffer_data (buf.offset + 8) m.payload.length = m.payload ∧
        b1.buffer_maxsize = buf.buffer_maxsize) ∧
    (∀ (impl : pw_connection_impl) (m : msg) (control : List cmsghdr),
      msg_ok m → impl.in_.update = false →
      impl.in_.buffer_size = impl.in_.offset + impl.in_.size + 8 →
      (∀ i, i < 8 →
        peek 0 impl.in_.buffer_data (impl.in_.offset + impl.in_.size + i)
          = peek 0 (frame m) i) →
      0 < m.payload.length → m.payload.length = recv_iov_len impl.in_ →
      pw_connection_get_next [] impl = none ∧
      ∃ impl1,
        pw_connection_get_next [.ok m.payload control] impl =
          some (.message m.opcode m.dest_id (impl.in_.offset + impl.in_.size + 8)
            m.payload.length, impl1, []) ∧
        delivered (.message m.opcode m.dest_id (impl.in_.offset + impl.in_.size + 8)
            m.payload.length) impl1.in_ = some m ∧
        impl1.in_.buffer_maxsize = impl.in_.buffer_maxsize) := by
  refine ⟨?_, ?_, ?_, ?_⟩
  · intro h8
    obtain ⟨-, -, hfit, -⟩ := connection_ensure_size_frame buf 8
    refine ⟨{ (connection_ensure_size buf 8).2 with update := true }, ?_, ?_, ?_,
      ensure_size_size buf 8, ensure_size_offset buf 8, rfl⟩
    · unfold get_next_parse
      simp only []
      rw [if_neg (by omega), if_pos h8]
    · simp only [recv_iov_len, ensure_size_size]
      omega
    · simp only [recv_iov_len, ensure_size_size]
      omega
  · intro h8 hlen
    obtain ⟨-, -, hfit, -⟩ := connection_ensure_size_frame buf
      (load32 buf.buffer_data (buf.offset + 4) &&& 0xffffff)
    refine ⟨{ (connection_ensure_size buf
        (load32 buf.buffer_data (buf.offset + 4) &&& 0xffffff)).2 with update := true },
      ?_, ?_, ?_, ensure_size_size buf _, ensure_size_offset buf _, rfl⟩
    · unfold get_next_parse
      simp only []
      rw [if_neg (by omega), if_neg (by omega), if_pos (by omega)]
    · simp only [recv_iov_len, ensure_size_size]
      omega
    · simp only [recv_iov_len, ensure_size_size]
      omega
  · intro m control hm hsz hl hpos hroom
    exact ⟨get_next_parse_exact_room m hm buf hsz hl hpos hroom,
      get_next_again_exact_room m hm control buf hsz hl hpos hroom⟩
  · intro impl m control hm hup hsz hl hpos hroom
    have hparse := get_next_parse_exact_room m hm
      { impl.in_ with offset := impl.in_.offset + impl.in_.size } hsz hl hpos hroom
    have hentry : ∀ script, get_next_buffer script impl.in_
        = get_next_again script
            { impl.in_ with offset := impl.in_.offset + impl.in_.size, update := true } := by
      intro script
      unfold get_next_buffer
      simp only []
      rw [if_neg (by rw [hup]; exact Bool.false_ne_true), hparse]
    obtain ⟨hnone, b1, hget, hload, hmax⟩ := get_next_again_exact_room m hm control
      { impl.in_ with offset := impl.in_.offset + impl.in_.size } hsz hl hpos hroom
    constructor
    · unfold pw_connection_get_next
      rw [hentry]
      rfl
    · have hget2 : get_next_buffer [.ok m.payload control] impl.in_
          = some (.message m.opcode m.dest_id (impl.in_.offset + impl.in_.size + 8)
              m.payload.length, b1, []) := by
        rw [hentry]
        exact hget
      refine ⟨{ impl with in_ := b1 }, pw_connection_get_next_eq _ _ _ _ _ hget2, ?_, hmax⟩
      simp only [delivered]
      exact congrArg _ (by rw [hload])

/-- C20, at concrete inputs: 5 bytes of a header in a new buffer, and a header
that declares the 4088 bytes that are left in a new buffer. -/
theorem grow_step_room_witness :
    (inbound_after [7, 0, 0, 0, 0]).offset < (inbound_after [7, 0, 0, 0, 0]).buffer_size ∧
    (∃ b, get_next_parse (inbound_after [7, 0, 0, 0, 0]) = .again b ∧
      8 - ((inbound_after [7, 0, 0, 0, 0]).buffer_size - (inbound_after [7, 0, 0, 0, 0]).offset)
        ≤ recv_iov_len b ∧ 1 ≤ recv_iov_len b ∧
      b.buffer_size = (inbound_after [7, 0, 0, 0, 0]).buffer_size ∧
      b.offset = (inbound_after [7, 0, 0, 0, 0]).offset ∧ b.update = true) ∧
    (get_next_parse (inbound_after [7, 0, 0, 0, 248, 15, 0, 9]) =
        .again { inbound_after [7, 0, 0, 0, 248, 15, 0, 9] with update := true } ∧
      get_next_again [] { inbound_after [7, 0, 0, 0, 248, 15, 0, 9] with update := true }
        = none ∧
      ∃ b1,
        get_next_again [.ok msg_4088.payload []]
            { inbound_after [7, 0, 0, 0, 248, 15, 0, 9] with update := true } =
          some (.message msg_4088.opcode msg_4088.dest_id
            ((inbound_after [7, 0, 0, 0, 248, 15, 0, 9]).offset + 8)
            msg_4088.payload.length, b1, []) ∧
        load 0 b1.buffer_data ((inbound_after [7, 0, 0, 0, 248, 15, 0, 9]).offset + 8)
          msg_4088.payload.length = msg_4088.payload ∧
        b1.buffer_maxsize = (inbound_after [7, 0, 0, 0, 248, 15, 0, 9]).buffer_maxsize) := by
  have hlen : msg_4088.payload.length = 4088 := List.length_replicate _ _
  refine ⟨by decide,
    (grow_step_room (inbound_after [7, 0, 0, 0, 0]) (by decide)).1 (by decide),
    (grow_step_room (inbound_after [7, 0, 0, 0, 248, 15, 0, 9]) (by decide)).2.2.1
      msg_4088 [] ⟨by decide, by decide, by rw [hlen]; decide⟩ (by decide) ?_
      (by rw [hlen]; decide) (by rw [hlen]; decide)⟩
  intro i hi
  by_cases h4 : i < 4
  · rw [peek_frame_lo _ i h4]
    interval_cases i <;> decide
  · obtain ⟨j, rfl⟩ : ∃ j, i = 4 + j := ⟨i - 4, by omega⟩
    have hj : j < 4 := by omega
    rw [peek_frame_hi _ j hj, hlen]
    interval_cases j <;> decide

/-! ## Properties of the shared memory block -/

/-- C16. Result contract of `pinos_memblock_alloc`.  It returns
`SPA_RESULT_INVALID_ARGUMENTS` exactly when `size` is 0 or the output target is
null, and then performs no call and writes nothing.  On success the struct
holds the given flags and size; without `WITH_FD` its `fd` is -1, its `ptr` is
the block `malloc` returned, now live, and no descriptor or mapping was made;
with `WITH_FD` its `fd` is the descriptor `mkostemp` returned, open on a file of
exactly `size` bytes, and `ptr` is the new mapping when read or write mapping
was requested and null otherwise.  When `ftruncate` fails the descriptor is
closed again, the resources are as before and `SPA_RESULT_ERRNO` is returned. -/
theorem alloc_contract (flags : PinosMemblockFlags) (size : Nat)
    (mem : Option PinosMemblock) (ans : sys_answers) (p : process) :
    ((pinos_memblock_alloc flags size mem ans p).1 = .SPA_RESULT_INVALID_ARGUMENTS ↔
      size = 0 ∨ mem = none) ∧
    (size = 0 ∨ mem = none →
      pinos_memblock_alloc flags size mem ans p =
        (.SPA_RESULT_INVALID_ARGUMENTS, mem, p, [])) ∧
    (∀ res p1 t,
      pinos_memblock_alloc flags size mem ans p = (.SPA_RESULT_OK, res, p1, t) →
      ∃ m1, res = some m1 ∧ m1.flags = flags ∧ m1.size = size ∧
        (flags.WITH_FD = false →
          m1.fd = -1 ∧ m1.ptr = ans.malloc ∧ m1.ptr ≠ NULL ∧
          p1 = { p with heap := (m1.ptr, size) :: p.heap } ∧ t = [.malloc size]) ∧
        (flags.WITH_FD = true →
          m1.fd = ans.mkostemp ∧ m1.fd ≠ -1 ∧
          p1.open_files = (m1.fd, size) :: p.open_files ∧
          p1.heap = p.heap ∧ p1.shm_names = p.shm_names ∧
          (flags.MAP_READWRITE = true →
            m1.ptr = ans.mmap ∧ m1.ptr ≠ MAP_FAILED ∧
            p1.mappings = (m1.ptr, size) :: p.mappings) ∧
          (flags.MAP_READWRITE = false → m1.ptr = NULL ∧ p1.mappings = p.mappings))) ∧
    (∀ m0, mem = some m0 → size ≠ 0 → flags.WITH_FD = true → ans.mkostemp ≠ -1 →
      ans.ftruncate < 0 →
      ∃ m1, pinos_memblock_alloc flags size mem ans p =
        (.SPA_RESULT_ERRNO, some m1, p,
          [.mkostemp, .unlink, .ftruncate ans.mkostemp size, .close ans.mkostemp])) := by
  have hinv : size = 0 ∨ mem = none →
      pinos_memblock_alloc flags size mem ans p =
        (.SPA_RESULT_INVALID_ARGUMENTS, mem, p, []) := by
    intro h
    cases mem with
    | none => rfl
    | some m0 =>
      rcases h with h | h
      · unfold pinos_memblock_alloc
        simp only [h, if_true]
      · cases h
  have hother : ¬ (size = 0 ∨ mem = none) →
      (pinos_memblock_alloc flags size mem ans p).1 ≠ .SPA_RESULT_INVALID_ARGUMENTS := by
    intro h
    cases mem with
    | none => exact absurd (Or.inr rfl) h
    | some m0 =>
      have hs : size ≠ 0 := fun hs => h (Or.inl hs)
      cases hf : flags.WITH_FD with
      | false =>
        rw [alloc_heap flags size m0 ans p hs hf]
        split <;> simp
      | true =>
        rw [alloc_fd flags size m0 ans p hs hf]
        split
        · simp
        · split
          · simp
          · split
            · split <;> simp
            · simp
  refine ⟨?_, hinv, ?_, ?_⟩
  · constructor
    · intro h
      by_contra hn
      exact hother hn h
    · intro h
      rw [hinv h]
  · intro res p1 t h
    cases mem with
    | none => cases h
    | some m0 =>
      have hs : size ≠ 0 := by
        intro hs
        rw [hinv (Or.inl hs)] at h
        cases h
      cases hf : flags.WITH_FD with
      | false =>
        rw [alloc_heap flags size m0 ans p hs hf] at h
        split at h
        · cases h
        · rename_i hm
          simp only [Prod.mk.injEq, true_and] at h
          obtain ⟨h1, h2, h3⟩ := h
          subst h1 h2 h3
          exact ⟨_, rfl, rfl, rfl, fun _ => ⟨rfl, rfl, hm, rfl, rfl⟩,
            fun hc => absurd hc (by decide)⟩
      | true =>
        rw [alloc_fd flags size m0 ans p hs hf] at h
        split at h
        · cases h
        · rename_i hfd
          split at h
          · cases h
          · split at h
            · rename_i hmap
              split at h
              · cases h
              · rename_i hmm
                simp only [Prod.mk.injEq, true_and] at h
                obtain ⟨h1, h2, h3⟩ := h
                subst h1 h2 h3
                exact ⟨_, rfl, rfl, rfl, fun hc => absurd hc (by decide),
                  fun _ => ⟨rfl, hfd, rfl, rfl, rfl, fun _ => ⟨rfl, hmm, rfl⟩,
                    fun hc => absurd (hmap.symm.trans hc) (by decide)⟩⟩
            · rename_i hmap
              simp only [Prod.mk.injEq, true_and] at h
              obtain ⟨h1, h2, h3⟩ := h
              subst h1 h2 h3
              exact ⟨_, rfl, rfl, rfl, fun hc => absurd hc (by decide),
                fun _ => ⟨rfl, hfd, rfl, rfl, rfl, fun hc => absurd hc hmap,
                  fun _ => ⟨rfl, rfl⟩⟩⟩
  · intro m0 hmem hs hf hfd htr
    subst hmem
    rw [alloc_fd flags size m0 ans p hs hf, if_neg hfd, if_pos htr]
    exact ⟨_, rfl⟩

/-- C15. No resource is left outstanding: when `pinos_memblock_alloc` succeeds
(and `mmap`, where it was called, did not return the null address),
`pinos_memblock_free` of the block right after leaves the open descriptors, the
mappings, the heap blocks and the linked names exactly as they were before the
allocation, and the block then has `ptr` null and `fd` -1. -/
theorem alloc_free_restores (flags : PinosMemblockFlags) (size : Nat) (m0 : PinosMemblock)
    (ans : sys_answers) (p : process) (m1 : PinosMemblock) (p1 : process)
    (t : List syscall) (hmmap : ans.mmap ≠ NULL)
    (h : pinos_memblock_alloc flags size (some m0) ans p =
      (.SPA_RESULT_OK, some m1, p1, t)) :
    ∃ m2 t2,
      pinos_memblock_free (some m1) p1 = (some m2, p, t2) ∧
      m2.ptr = NULL ∧ m2.fd = -1 ∧
      (flags.WITH_FD = false → t2 = [.free m1.ptr]) ∧
      (flags.WITH_FD = true → flags.MAP_READWRITE = true →
        t2 = [.munmap m1.ptr size, .close m1.fd]) ∧
      (flags.WITH_FD = true → flags.MAP_READWRITE = false → t2 = [.close m1.fd]) := by
  have hs : size ≠ 0 := by
    intro hs
    unfold pinos_memblock_alloc at h
    simp only [hs, if_true] at h
    cases h
  cases hf : flags.WITH_FD with
  | false =>
    rw [alloc_heap flags size m0 ans p hs hf] at h
    split at h
    · cases h
    · rename_i hm
      simp only [Prod.mk.injEq, true_and, Option.some.injEq] at h
      obtain ⟨h1, h2, h3⟩ := h
      subst h1 h2 h3
      refine ⟨{ flags := flags, fd := -1, ptr := NULL, size := size }, [.free ans.malloc],
        ?_, rfl, rfl, fun _ => rfl, fun hc => absurd hc (by decide),
        fun hc => absurd hc (by decide)⟩
      unfold pinos_memblock_free sys_free
      simp only [hf, Bool.false_eq_true, if_false, hm, eraseP_heap_head]
  | true =>
    rw [alloc_fd flags size m0 ans p hs hf] at h
    split at h
    · cases h
    · rename_i hfd
      split at h
      · cases h
      · split at h
        · rename_i hmap
          split at h
          · cases h
          · rename_i hmm
            simp only [Prod.mk.injEq, true_and, Option.some.injEq] at h
            obtain ⟨h1, h2, h3⟩ := h
            subst h1 h2 h3
            refine ⟨{ flags := flags, fd := -1, ptr := NULL, size := size },
              [.munmap ans.mmap size, .close ans.mkostemp], ?_, rfl, rfl,
              fun hc => absurd hc (by decide), fun _ _ => rfl,
              fun _ hc => absurd (hmap.symm.trans hc) (by decide)⟩
            unfold pinos_memblock_free free_unmap free_close sys_munmap sys_close
            simp only [hf, if_true, ne_eq, hmmap, not_false_eq_true, hfd,
              List.erase_cons_head, eraseP_head, List.singleton_append]
        · rename_i hmap
          simp only [Prod.mk.injEq, true_and, Option.some.injEq] at h
          obtain ⟨h1, h2, h3⟩ := h
          subst h1 h2 h3
          refine ⟨{ flags := flags, fd := -1, ptr := NULL, size := size },
            [.close ans.mkostemp], ?_, rfl, rfl, fun hc => absurd hc (by decide),
            fun _ hc => absurd hc hmap, fun _ _ => rfl⟩
          unfold pinos_memblock_free free_unmap free_close sys_close
          simp only [hf, if_true, ne_eq, not_true_eq_false, if_false, hfd,
            not_false_eq_true, eraseP_head, List.nil_append]

/-- C15, at a concrete input: a 4096-byte block with a descriptor, mapped for
reading and writing, in a process that has descriptors 0, 1 and 2 open. -/
theorem alloc_free_restores_witness :
    pinos_memblock_alloc
        { WITH_FD := true, SEAL := false, MAP_READ := true, MAP_WRITE := true } 4096
        (some { flags := { WITH_FD := false, SEAL := false, MAP_READ := false,
                           MAP_WRITE := false }, fd := 0, ptr := 0, size := 0 })
        { mkostemp := 3, ftruncate := 0, mmap := 140737488351232, malloc := 0 }
        { open_files := [(0, 0), (1, 0), (2, 0)], mappings := [], heap := [], shm_names := 0 }
      = (.SPA_RESULT_OK,
          some { flags := { WITH_FD := true, SEAL := false, MAP_READ := true,
                            MAP_WRITE := true }, fd := 3, ptr := 140737488351232, size := 4096 },
          { open_files := [(3, 4096), (0, 0), (1, 0), (2, 0)],
            mappings := [(140737488351232, 4096)], heap := [], shm_names := 0 },
          [.mkostemp, .unlink, .ftruncate 3 4096, .mmap 4096 true true 3]) ∧
    ∃ m2 t2,
      pinos_memblock_free
          (some { flags := { WITH_FD := true, SEAL := false, MAP_READ := true,
                             MAP_WRITE := true }, fd := 3, ptr := 140737488351232, size := 4096 })
          { open_files := [(3, 4096), (0, 0), (1, 0), (2, 0)],
            mappings := [(140737488351232, 4096)], heap := [], shm_names := 0 }
        = (some m2,
            { open_files := [(0, 0), (1, 0), (2, 0)], mappings := [], heap := [],
              shm_names := 0 }, t2) ∧
      m2.ptr = NULL ∧ m2.fd = -1 :=
  ⟨by decide,
    (alloc_free_restores
      { WITH_FD := true, SEAL := false, MAP_READ := true, MAP_WRITE := true } 4096
      { flags := { WITH_FD := false, SEAL := false, MAP_READ := false, MAP_WRITE := false },
        fd := 0, ptr := 0, size := 0 }
      { mkostemp := 3, ftruncate := 0, mmap := 140737488351232, malloc := 0 }
      { open_files := [(0, 0), (1, 0), (2, 0)], mappings := [], heap := [], shm_names := 0 }
      _ _ _ (by decide) rfl).imp
      (fun _ h => h.imp (fun _ h2 => ⟨h2.1, h2.2.1, h2.2.2.1⟩))⟩

end Pipewire
